import Mathlib

/-!
Shallow embedding of the generalized-series core (src/generalized_series.py)
over the coefficient field K = ℚ (Sage QQ), with the variable fixed to x.

A truncated power series (an element of Sage PowerSeriesRing(QQ, x)) is a
list of coefficients together with an absolute precision (none = exact).
A tail / expansion (an element of PowerSeriesRing(QQ, x)[LOG]) is a list of
truncated power series, indexed by the LOG-degree.  An exponential part
(an element of QQ[x]) is a list of rational coefficients.  Polynomial
representations are kept normalized (no trailing zero coefficients), as the
host ring normalizes them.

External substrate (polynomial / power-series rings of the host system) is
modelled from the spec, section 6: addition and multiplication of truncated
series follow the minimum-precision rule, inversion of a unit requires a
nonzero constant term, per-coefficient precisions are tracked.
-/

/-- Precision of a truncated power series: none is infinite (exact series). -/
abbrev Prec := Option ℕ

/-- Minimum of two precisions (none = +infinity). -/
def pmin : Prec → Prec → Prec
  | none, b => b
  | a, none => a
  | some m, some n => some (min m n)

/-- Truncate a coefficient list below an absolute precision. -/
def ptrunc : Prec → List ℚ → List ℚ
  | none, l => l
  | some n, l => l.take n

/-- Scale a precision by a positive integer (composition with x^q). -/
def pscale (q : ℕ) : Prec → Prec
  | none => none
  | some n => some (n * q)

/-- Decrease a precision by m (division of a series by x^m). -/
def psub (m : ℕ) : Prec → Prec
  | none => none
  | some n => some (n - m)

/-- Drop trailing zero coefficients: the normal form the polynomial ring keeps. -/
def trim : List ℚ → List ℚ
  | [] => []
  | a :: as =>
    match trim as with
    | [] => if a = 0 then [] else [a]
    | bs => a :: bs

/-- Coefficient-wise sum of two coefficient lists. -/
def addQ : List ℚ → List ℚ → List ℚ
  | [], bs => bs
  | as, [] => as
  | a :: as, b :: bs => (a + b) :: addQ as bs

/-- Cauchy product of two coefficient lists. -/
def convolve : List ℚ → List ℚ → List ℚ
  | [], _ => []
  | a :: as, bs => addQ (bs.map (fun b => a * b)) (0 :: convolve as bs)

/-- Composition with x^q: coefficient at exponent e moves to exponent e*q. -/
def stretch (q : ℕ) : List ℚ → List ℚ
  | [] => []
  | a :: as => a :: (List.replicate (q - 1) 0 ++ stretch q as)

/-- Substitution x^q -> x on a list whose nonzero exponents are multiples of q:
the dict rebuild of the source (exponent e is stored at e/q) keeps exactly
the coefficients at the multiples of q, since no two such exponents collide. -/
def everyNth (q : ℕ) (l : List ℚ) : List ℚ :=
  (List.range ((l.length + q - 1) / q)).map (fun j => l.getD (j * q) 0)

/-- Monomial c * x^k as a coefficient list. -/
def monomialQ (k : ℕ) (c : ℚ) : List ℚ := List.replicate k 0 ++ [c]

/-- Coefficient list padded or cut to length exactly n (Sage padded_list). -/
def paddedTo (n : ℕ) (l : List ℚ) : List ℚ :=
  l.take n ++ List.replicate (n - l.length) 0

/-- Truncated power series over ℚ: coefficients (normalized, no trailing
zeros) and an absolute precision. -/
structure PSer where
  coeffs : List ℚ
  prec : Prec
  deriving Repr, DecidableEq

/-- A truncated series is zero when it has no (known) nonzero coefficient. -/
def PSer.isZero (a : PSer) : Bool := a.coeffs.isEmpty

/-- Coefficient of x^i. -/
def PSer.coeff (a : PSer) (i : ℕ) : ℚ := a.coeffs.getD i 0

/-- Valuation: index of the first nonzero coefficient (of a nonzero series). -/
def PSer.valuation (a : PSer) : ℕ := a.coeffs.findIdx (fun c => decide (c ≠ 0))

/-- The zero series (exact). -/
def PSer.zero : PSer := ⟨[], none⟩

/-- The one series (exact). -/
def PSer.one : PSer := ⟨[1], none⟩

/-- The monomial x^k as an exact series. -/
def PSer.xpow (k : ℕ) : PSer := ⟨monomialQ k 1, none⟩

/-- Modelled from the spec (section 6): product of truncated series with the
minimum-precision rule prec(a*b) = min(prec a, prec b). -/
def PSer.mul (a b : PSer) : PSer :=
  ⟨trim (ptrunc (pmin a.prec b.prec) (convolve a.coeffs b.coeffs)), pmin a.prec b.prec⟩

/-- Modelled from the spec (section 6): sum of truncated series with the
minimum-precision rule prec(a+b) = min(prec a, prec b). -/
def PSer.add (a b : PSer) : PSer :=
  ⟨trim (ptrunc (pmin a.prec b.prec) (addQ a.coeffs b.coeffs)), pmin a.prec b.prec⟩

/-- Negation of a truncated series (precision unchanged). -/
def PSer.neg (a : PSer) : PSer := ⟨trim (a.coeffs.map (fun c => -c)), a.prec⟩

/-- Multiplication by an exact scalar (precision unchanged). -/
def PSer.smul (q : ℚ) (a : PSer) : PSer := ⟨trim (a.coeffs.map (fun c => q * c)), a.prec⟩

/-- Division by x^m (q // x^(ram*alpha) in the source): shift the
coefficients down and lower the precision. -/
def PSer.shiftDown (m : ℕ) (a : PSer) : PSer := ⟨a.coeffs.drop m, psub m a.prec⟩

/-- Composition c(x^q) (the inflation of a series to a larger ramification). -/
def PSer.inflate (q : ℕ) (a : PSer) : PSer := ⟨trim (stretch q a.coeffs), pscale q a.prec⟩

/-- Ramification reduction x^q -> x of a series.  The source rebuilds the
series from a dict of exponents, which yields an exact series: the stored
precision is lost there. -/
def PSer.contract (q : ℕ) (a : PSer) : PSer := ⟨trim (everyNth q a.coeffs), none⟩

/-- Coefficients of the inverse of a unit power series up to precision p. -/
def invCoeffs (a : List ℚ) (p : ℕ) : List ℚ :=
  let a0 := a.getD 0 0
  (List.range p).foldl
    (fun b n =>
      if n = 0 then [1 / a0]
      else
        b ++ [-(((List.range n).foldl
          (fun s k => s + a.getD (k + 1) 0 * b.getD (n - 1 - k) 0) 0) / a0)])
    []

/-- Modelled from the spec (section 6): inversion of a unit truncated series
(nonzero constant term).  An exact series is inverted at the ring's default
precision 20, as the host system does. -/
def PSer.inv (a : PSer) : PSer :=
  match a.prec with
  | none => ⟨trim (invCoeffs a.coeffs 20), some 20⟩
  | some n => ⟨trim (invCoeffs a.coeffs n), some n⟩

/-- Drop trailing zero series: the normal form of a polynomial over the
power-series ring (a coefficient whose known coefficients all vanish counts
as zero there). -/
def trimT : List PSer → List PSer
  | [] => []
  | a :: as =>
    match trimT as with
    | [] => if a.isZero then [] else [a]
    | bs => a :: bs

/-- Sum of two tails, coefficient by coefficient. -/
def addT : List PSer → List PSer → List PSer
  | [], bs => bs
  | as, [] => as
  | a :: as, b :: bs => PSer.add a b :: addT as bs

/-- Raw product of two tails (polynomials in LOG over the series ring). -/
def mulTAux : List PSer → List PSer → List PSer
  | [], _ => []
  | a :: as, bs => addT (bs.map (fun b => PSer.mul a b)) (PSer.zero :: mulTAux as bs)

/-- Normalized product of two tails. -/
def mulT (a b : List PSer) : List PSer := trimT (mulTAux a b)

/-- map_coefficients of the host system: apply f to the nonzero coefficients
only, then renormalize the polynomial. -/
def mapNZ (f : PSer → PSer) (t : List PSer) : List PSer :=
  trimT (t.map (fun c => if c.isZero then c else f c))

/-- Denominator of the rational exponent e/ram. -/
def expDen (e ram : ℕ) : ℕ := ((e : ℚ) / (ram : ℚ)).den

/-- lcm of the denominators (e/ram).denominator() over the nonzero exponents
of a coefficient list, the list starting at exponent i; lcm of none is 1. -/
def lcmDenFrom (ram : ℕ) : ℕ → List ℚ → ℕ
  | _, [] => 1
  | i, c :: cs =>
    if c = 0 then lcmDenFrom ram (i + 1) cs
    else Nat.lcm (expDen i ram) (lcmDenFrom ram (i + 1) cs)

/-- lcm of exponent denominators of a polynomial over ℚ. -/
def lcmDenE (ram : ℕ) (l : List ℚ) : ℕ := lcmDenFrom ram 0 l

/-- lcm of exponent denominators of one power-series coefficient. -/
def lcmDenPS (ram : ℕ) (c : PSer) : ℕ := lcmDenFrom ram 0 c.coeffs

/-- Fold of the ramification lcm over the nonzero coefficients of a tail,
starting from an already-computed value (the loop over p.coefficients()). -/
def tailRamFold (ram : ℕ) (start : ℕ) (t : List PSer) : ℕ :=
  t.foldl (fun acc c => if c.isZero then acc else Nat.lcm acc (lcmDenPS ram c)) start

/-- Minimal valuation over the nonzero coefficients of a tail (alpha * ram in
the continuous constructor; the tail must be nonzero for the value to be used). -/
def minValT (t : List PSer) : ℕ :=
  match (t.filter (fun c => !c.isZero)).map PSer.valuation with
  | [] => 0
  | v :: vs => vs.foldl min v

/-- The new_ram computation of the continuous constructor: the lcm over the
exponential part, extended over the tail only when already smaller than the
given ramification. -/
def newRamC (ram : ℕ) (e : List ℚ) (t : List PSer) : ℕ :=
  let nr := lcmDenE ram e
  if nr < ram then tailRamFold ram nr t else nr

/-- Python exceptions the generalized-series core can raise. -/
inductive PyErr where
  | zeroDivisionError
  | valueNotInvertible
  | valueNotSimilar
  | valueConstruction
  | typeError
  | valueNegativeShift
  | valueInsufficientPrecision
  | infinitePrecision
  deriving Repr, DecidableEq

/-- Result of a fallible operation: a value or a raised exception. -/
inductive Res (α : Type) where
  | ok : α → Res α
  | raised : PyErr → Res α
  deriving Repr, DecidableEq

/-- ContinuousGeneralizedSeries: ramification r, exponential part E (a
polynomial over ℚ) and tail T (a polynomial in LOG over the truncated
power-series ring), representing exp(int E(x^(-1/r))/x) * T(x^(1/r), log x). -/
structure ContinuousGeneralizedSeries where
  ramification : ℕ
  exp : List ℚ
  tail : List PSer
  deriving Repr, DecidableEq

/-- The canonical zero continuous series (r = 1, E = 0, T = 0). -/
def zeroC : ContinuousGeneralizedSeries := ⟨1, [], []⟩

/-- The normalizing constructor ContinuousGeneralizedSeries.__init__ on a raw
(tail, exponential part, ramification) triple, make_monic left False.  A zero
tail collapses to the canonical zero; otherwise the minimal valuation alpha =
min val(c)/ram is folded into the exponential part, and the ramification is
reduced to the lcm of all exponent denominators when smaller.  The source
validates ram > 0 first (raising otherwise); all internal call sites pass a
positive ramification, so the embedding takes that path as total. -/
def mkCGS (tail0 : List PSer) (exp0 : List ℚ) (ram0 : ℕ) : ContinuousGeneralizedSeries :=
  let p0 := trimT tail0
  if p0.isEmpty then zeroC
  else
    let e0 := trim exp0
    let mv := minValT p0
    let e1 := if mv = 0 then e0 else trim (addQ e0 [(mv : ℚ) / (ram0 : ℚ)])
    let p1 := if mv = 0 then p0 else mapNZ (PSer.shiftDown mv) p0
    let nr := newRamC ram0 e1 p1
    if nr ≠ ram0 then
      ⟨nr, trim (everyNth (ram0 / nr) e1), trimT (p1.map (PSer.contract (ram0 / nr)))⟩
    else ⟨ram0, e1, p1⟩

/-- is_zero: the tail is zero. -/
def ContinuousGeneralizedSeries.is_zero (A : ContinuousGeneralizedSeries) : Bool :=
  A.tail.isEmpty

/-- The private __inflate: re-express the exponential part and tail at a
ramification s that is a positive integer multiple of the stored one. -/
def ContinuousGeneralizedSeries.inflate (A : ContinuousGeneralizedSeries) (s : ℕ) :
    List ℚ × List PSer :=
  if s = A.ramification then (A.exp, A.tail)
  else
    let quo := s / A.ramification
    (trim (stretch quo A.exp), mapNZ (PSer.inflate quo) A.tail)

/-- _mul_: unify ramification to the lcm, add the exponential parts, multiply
the tails, renormalize. -/
def ContinuousGeneralizedSeries.mul (A B : ContinuousGeneralizedSeries) :
    ContinuousGeneralizedSeries :=
  let s := Nat.lcm A.ramification B.ramification
  let ia := A.inflate s
  let ib := B.inflate s
  mkCGS (mulT ia.2 ib.2) (trim (addQ ia.1 ib.1)) s

/-- similar (with the default reference set ZZ): s*(E_A - E_B) at the common
ramification s must coerce into ZZ, i.e. be a constant integer polynomial. -/
def ContinuousGeneralizedSeries.similar (A B : ContinuousGeneralizedSeries) : Bool :=
  let s := Nat.lcm A.ramification B.ramification
  let d := trim (addQ (A.inflate s).1 (((B.inflate s).1).map (fun c => -c)))
  match d with
  | [] => true
  | [c] => ((s : ℚ) * c).den == 1
  | _ => false

/-- _add_: return the other operand when one is zero; raise for non-similar
series; otherwise unify ramification, shift the tail with the larger exponent
by x^d and add. -/
def ContinuousGeneralizedSeries.add (A B : ContinuousGeneralizedSeries) :
    Res ContinuousGeneralizedSeries :=
  if A.tail.isEmpty then .ok B
  else if B.tail.isEmpty then .ok A
  else if A.similar B then
    let s := Nat.lcm A.ramification B.ramification
    let ia := A.inflate s
    let ib := B.inflate s
    let dq : ℚ := (s : ℚ) * (trim (addQ ia.1 (ib.1.map (fun c => -c)))).getD 0 0
    let d : ℤ := dq.num
    if d < 0 then
      .ok (mkCGS (trimT (addT (ib.2.map (PSer.mul (PSer.xpow (-d).toNat))) ia.2)) ia.1 s)
    else
      .ok (mkCGS (trimT (addT (ia.2.map (PSer.mul (PSer.xpow d.toNat))) ib.2)) ib.1 s)
  else .raised .valueNotSimilar

/-- has_logarithms of the continuous class: the body computes
tail.degree() > 0 but the source has no return statement on that path, so
the Python function returns None (falsy) for every input. -/
def ContinuousGeneralizedSeries.has_logarithms (_A : ContinuousGeneralizedSeries) :
    Option Bool :=
  none

/-- Truthiness of a Python optional boolean: None is falsy. -/
def pyTruthy : Option Bool → Bool
  | none => false
  | some b => b

/-- __invert__: raise ZeroDivisionError on the zero series; raise the
designated ValueError when has_logarithms is truthy; otherwise invert the
tail as a unit of the power-series ring (a degree-0 tail with a unit constant
coefficient) and negate the exponential part.  Inverting a tail that is not
such a unit fails in the host system with an error of a different kind,
modelled as typeError. -/
def ContinuousGeneralizedSeries.invert (A : ContinuousGeneralizedSeries) :
    Res ContinuousGeneralizedSeries :=
  if A.tail.isEmpty then .raised .zeroDivisionError
  else if pyTruthy A.has_logarithms then .raised .valueNotInvertible
  else
    match A.tail with
    | [c] =>
      if c.coeff 0 ≠ 0 then
        .ok (mkCGS [c.inv] (trim (A.exp.map (fun q => -q))) A.ramification)
      else .raised .typeError
    | _ => .raised .typeError

/-- exponential_part: the series with the same exponential part and tail 1. -/
def ContinuousGeneralizedSeries.exponential_part (A : ContinuousGeneralizedSeries) :
    ContinuousGeneralizedSeries :=
  mkCGS [PSer.one] A.exp A.ramification

/-- has_exponential_part as the source computes it: not
self.exponential_part().is_zero(), where is_zero tests the tail of the
returned series. -/
def ContinuousGeneralizedSeries.has_exponential_part (A : ContinuousGeneralizedSeries) :
    Bool :=
  !(A.exponential_part.is_zero)

/-- tail(): the series obtained by dropping the exponential part. -/
def ContinuousGeneralizedSeries.tailPart (A : ContinuousGeneralizedSeries) :
    ContinuousGeneralizedSeries :=
  mkCGS A.tail [] A.ramification

/-- Scale the coefficient of LOG^j by acc * e^j (evaluation of the tail at
e*LOG), acc being the power of e accumulated so far. -/
def scaleLog (e : ℚ) : ℚ → List PSer → List PSer
  | _, [] => []
  | acc, c :: cs => PSer.smul acc c :: scaleLog e (acc * e) cs

/-- substitute: replace x by x^e for a positive rational e = a/b; rescale the
exponential part by e after composing with x^a, rescale the tail exponents by
a and the LOG argument by e, and multiply the ramification by b.  Substituting
e = 1 returns the series itself unchanged. -/
def ContinuousGeneralizedSeries.substitute (A : ContinuousGeneralizedSeries) (e : ℚ) :
    Res ContinuousGeneralizedSeries :=
  if e ≤ 0 then .raised .typeError
  else if e = 1 then .ok A
  else
    let a := e.num.toNat
    let b := e.den
    let e1 := trim ((stretch a A.exp).map (fun c => e * c))
    let t1 := mapNZ (PSer.inflate a) (trimT (scaleLog e 1 A.tail))
    .ok (mkCGS t1 e1 (b * A.ramification))

/-- Equality of truncated series as the host system compares them: the
coefficients agree below the smaller of the two precisions. -/
def PSer.eqSage (a b : PSer) : Bool :=
  decide (trim (ptrunc (pmin a.prec b.prec) a.coeffs)
    = trim (ptrunc (pmin a.prec b.prec) b.coeffs))

/-- Equality of two normalized tails: same length and coefficient-wise
series equality. -/
def tailEqSage (s t : List PSer) : Bool :=
  s.length == t.length && (List.zip s t).all (fun p => PSer.eqSage p.1 p.2)

/-- __eq__ of continuous series: equal ramification, equal exponential part
and equal tail (exact, no tolerance). -/
def ContinuousGeneralizedSeries.eq (A B : ContinuousGeneralizedSeries) : Bool :=
  A.ramification == B.ramification && decide (A.exp = B.exp) && tailEqSage A.tail B.tail

/-- The sample series G(1 + x + x^2) of the doctests. -/
def seriesOnePlusXPlusX2 : ContinuousGeneralizedSeries :=
  mkCGS [⟨[1, 1, 1], none⟩] [] 1

/-- The series log(x): tail LOG, exponential part 0, ramification 1. -/
def logSeries : ContinuousGeneralizedSeries :=
  mkCGS [PSer.zero, PSer.one] [] 1

/-- The one series of the continuous monoid. -/
def oneC : ContinuousGeneralizedSeries :=
  mkCGS [PSer.one] [] 1

/-- DiscreteGeneralizedSeries: superexponential rate gamma = u/v, ramification,
exponential rate rho, subexponential part (a polynomial with zero constant
term), leading exponent alpha, and the expansion (a polynomial in LOG over
the truncated power-series ring in the reciprocal generator). -/
structure DiscreteGeneralizedSeries where
  gamma : ℚ
  ramification : ℕ
  rho : ℚ
  subexp : List ℚ
  alpha : ℚ
  expansion : List PSer
  deriving Repr, DecidableEq

/-- The canonical zero discrete series: expansion 0 with gamma = 0, ram = 1,
rho = 0, subexp = 0, alpha = 0, exactly as the zero collapse stores it. -/
def zeroD : DiscreteGeneralizedSeries := ⟨0, 1, 0, [], 0, []⟩

/-- The one series of the discrete monoid (the image of the scalar 1). -/
def oneD : DiscreteGeneralizedSeries := ⟨0, 1, 1, [], 0, [PSer.one]⟩

/-- Valuation of a coefficient as the discrete constructor reads it over the
padded coefficient list: a zero series contributes its precision (infinite
for an exact zero). -/
def pvalW (c : PSer) : Prec :=
  if c.coeffs.isEmpty then c.prec else some c.valuation

/-- Minimum valuation over all (padded) coefficients of an expansion. -/
def minValW (t : List PSer) : Prec :=
  t.foldl (fun acc c => pmin acc (pvalW c)) none

/-- The new_ram computation of the discrete constructor: lcm of the
denominator of gamma, the subexponential exponent denominators and the
expansion exponent denominators. -/
def newRamD (ram : ℕ) (gamma : ℚ) (subexp : List ℚ) (t : List PSer) : ℕ :=
  tailRamFold ram (Nat.lcm gamma.den (lcmDenE ram subexp)) t

/-- The normalizing constructor DiscreteGeneralizedSeries.__init__ on a full
6-tuple (gamma, ram, rho, subexp, alpha, expansion), make_monic left False.
It raises ValueError when rho is zero or the ramification is not positive;
a zero expansion collapses to the canonical zero; otherwise the minimal
valuation is folded into alpha and the ramification reduced when a smaller
one represents the same value. -/
def mkDGS (gamma : ℚ) (ram : ℕ) (rho : ℚ) (subexp : List ℚ) (alpha : ℚ)
    (expansion : List PSer) : Res DiscreteGeneralizedSeries :=
  if rho = 0 ∨ ram = 0 then .raised .valueConstruction
  else
    let ex0 := trimT expansion
    if ex0.isEmpty then .ok zeroD
    else
      let sub0 := trim subexp
      let av : ℚ × List PSer :=
        match minValW ex0 with
        | some d =>
          if d ≠ 0 then (alpha - (d : ℚ) / (ram : ℚ), mapNZ (PSer.shiftDown d) ex0)
          else (alpha, ex0)
        | none => (alpha, ex0)
      let nr := newRamD ram gamma sub0 av.2
      if nr < ram then
        let quo := ram / nr
        .ok ⟨gamma, nr, rho, trim (everyNth quo sub0), av.1,
          trimT (av.2.map (PSer.contract quo))⟩
      else .ok ⟨gamma, ram, rho, sub0, av.1, av.2⟩

/-- is_zero: the expansion is zero. -/
def DiscreteGeneralizedSeries.is_zero (A : DiscreteGeneralizedSeries) : Bool :=
  A.expansion.isEmpty

/-- The private __inflate of the discrete class: re-express subexponential
part and expansion at ramification s (quo = s / ram; identity when quo = 1). -/
def DiscreteGeneralizedSeries.inflate (A : DiscreteGeneralizedSeries) (s : ℕ) :
    List ℚ × List PSer :=
  let quo := s / A.ramification
  if quo = 1 then (A.subexp, A.expansion)
  else (trim (stretch quo A.subexp), mapNZ (PSer.inflate quo) A.expansion)

/-- _mul_ of discrete series: unify ramification, add gamma, subexp and
alpha, multiply rho and the expansions, renormalize through the constructor. -/
def DiscreteGeneralizedSeries.mul (A B : DiscreteGeneralizedSeries) :
    Res DiscreteGeneralizedSeries :=
  let ram := Nat.lcm A.ramification B.ramification
  let ia := A.inflate ram
  let ib := B.inflate ram
  mkDGS (A.gamma + B.gamma) ram (A.rho * B.rho) (trim (addQ ia.1 ib.1))
    (A.alpha + B.alpha) (mulT ia.2 ib.2)

/-- similar of discrete series (default reference set ZZ): equal gamma, rho,
ramification and subexponential part, and an integer difference of alphas. -/
def DiscreteGeneralizedSeries.similar (A B : DiscreteGeneralizedSeries) : Bool :=
  decide (A.gamma = B.gamma) && decide (A.rho = B.rho)
    && (A.ramification == B.ramification) && decide (A.subexp = B.subexp)
    && ((A.alpha - B.alpha).den == 1)

/-- _add_ of discrete series: return the other operand when one is zero,
raise for non-similar series, otherwise align the expansions at the larger
alpha and add. -/
def DiscreteGeneralizedSeries.add (A B : DiscreteGeneralizedSeries) :
    Res DiscreteGeneralizedSeries :=
  if A.expansion.isEmpty then .ok B
  else if B.expansion.isEmpty then .ok A
  else if A.similar B then
    let ram := Nat.lcm A.ramification B.ramification
    let ia := A.inflate ram
    let ib := B.inflate ram
    let alpha := max A.alpha B.alpha
    let ae :=
      if A.alpha < alpha then
        ia.2.map (PSer.mul (PSer.xpow ((ram : ℚ) * (alpha - A.alpha)).num.toNat))
      else ia.2
    let be :=
      if B.alpha < alpha then
        ib.2.map (PSer.mul (PSer.xpow ((ram : ℚ) * (alpha - B.alpha)).num.toNat))
      else ib.2
    mkDGS A.gamma A.ramification A.rho ia.1 alpha (trimT (addT ae be))
  else .raised .valueNotSimilar

/-- The generalized binomial coefficient C(lam, j) = lam(lam-1)...(lam-j+1)/j!
computed as in _binomial: b *= lam/(j - jj); lam -= 1. -/
def binomialQ (lam : ℚ) (j : ℕ) : ℚ :=
  ((List.range j).foldl (fun p jj => (p.1 * (p.2 / ((j : ℚ) - (jj : ℚ))), p.2 - 1))
    ((1 : ℚ), lam)).1

/-- _super_expansion: the series expansion of (1 + i/n)^(gamma*n) as
exp(inner) with inner = gamma*i*sum_l (-i*n)^l/(l+1), the exponential of the
truncated series computed by repeated self-convolution divided by factorials;
the padded coefficient list is returned in reversed order. -/
def superExpansion (gamma : ℚ) (i : ℤ) (prec : ℕ) : List ℚ :=
  let inner : List ℚ :=
    0 :: (List.range prec).map (fun l0 =>
      gamma * (i : ℚ) * ((-(i : ℚ)) ^ (l0 + 1 : ℕ)) / ((l0 : ℚ) + 2))
  let outer := ((List.range prec).foldl
    (fun st k =>
      let ip := trim ((convolve st.2 inner).take (prec + 1))
      (trim (addQ st.1 (ip.map (fun c => c / ((Nat.factorial (k + 1) : ℕ) : ℚ)))), ip))
    ([1], [1])).1
  (paddedTo (prec + 1) outer).reverse

/-- _sub_expansion: the product over l of the exponentials
exp(c_l * sum_j C(l/v, j) i^j n^(v*j - l)) truncated mod n^(v*prec + 1),
with v = m*(len+1); the padded coefficient list is returned reversed. -/
def subExpansion (coeffs : List ℚ) (m : ℕ) (i : ℤ) (prec : ℕ) : List ℚ :=
  let v := m * (coeffs.length + 1)
  let lim := v * prec + 1
  let prodP := (List.range coeffs.length).foldl
    (fun prodAcc l0 =>
      let l := l0 + 1
      let inner := (List.range prec).foldl
        (fun acc j0 =>
          let j := j0 + 1
          trim (addQ acc (monomialQ (v * j - l)
            (coeffs.getD l0 0 * binomialQ ((l : ℚ) / (v : ℚ)) j * (i : ℚ) ^ j)))) []
      let outer := ((List.range (v * prec)).foldl
        (fun st k =>
          let ip := trim ((convolve st.2 inner).take lim)
          (trim (addQ st.1 (ip.map (fun c => c / ((Nat.factorial (k + 1) : ℕ) : ℚ)))), ip))
        ([1], [1])).1
      trim ((convolve prodAcc outer).take lim)) [1]
  (paddedTo lim prodP).reverse

/-- _generalized_series_shift_quotient: a polynomial p with
f(x+i)/f(x) = p(x^(1/ram))/x^prec + O(x^(-prec)) for
f(x) = (x/e)^(x*gamma) rho^x exp(subexp part) x^alpha.  A zero shift returns
x^(ram*prec); a negative shift raises ValueError; a nonzero gamma requires
prec + shift*gamma >= 0 and raises the insufficient-precision ValueError
otherwise.  An infinite working precision cannot drive the expansion loops
(the host system fails on it); this is modelled as infinitePrecision. -/
def generalizedSeriesShiftQuotient (prec : Prec) (shift : ℤ) (gamma : ℚ) (rho : ℚ)
    (subexp : List ℚ × ℕ) (alpha : ℚ) : Res (List ℚ) :=
  let ram := gamma.den * subexp.2
  if shift = 0 then
    match prec with
    | some p => .ok (monomialQ (ram * p) 1)
    | none => .raised .infinitePrecision
  else if shift < 0 then .raised .valueNegativeShift
  else
    match prec with
    | none => .raised .infinitePrecision
    | some p =>
      let certV : Res (List ℚ) :=
        if gamma = 0 then .ok (monomialQ p 1)
        else
          let v := gamma.den
          if (p : ℚ) + (shift : ℚ) * gamma < 0 then .raised .valueInsufficientPrecision
          else
            let bound := (((p : ℚ) + (shift : ℚ) * gamma).floor).toNat
            let cert0 := (List.range (bound + 1)).foldl
              (fun acc (k : ℕ) =>
                trim (addQ acc (monomialQ ((v * (p : ℤ) + shift * gamma.num - v * (k : ℤ))).toNat
                  (binomialQ ((shift : ℚ) * gamma) k * (shift : ℚ) ^ k)))) []
            .ok (trim ((convolve cert0 (stretch v (superExpansion gamma shift p))).drop (v * p)))
      match certV with
      | .raised err => .raised err
      | .ok cert0 =>
        let cert1 := if rho ≠ 1 then cert0.map (fun c => rho ^ shift.toNat * c) else cert0
        let cert2 :=
          if ¬ (subexp.1.all (fun c => decide (c = 0))) then
            trim ((convolve cert1 (subExpansion subexp.1 subexp.2 shift p)).drop (ram * p))
          else cert1
        let cert3 :=
          if alpha ≠ 0 then
            trim ((convolve cert2 ((List.range (p + 1)).foldl
              (fun acc k => trim (addQ acc (monomialQ (ram * (p - k))
                (binomialQ alpha k * (shift : ℚ) ^ k)))) [])).drop (ram * p))
          else cert2
        .ok cert3

/-- Minimum precision over the nonzero coefficients of an expansion. -/
def minPrecT (t : List PSer) : Prec :=
  t.foldl (fun acc c => if c.isZero then acc else pmin acc c.prec) none

/-- Evaluation of a polynomial (low-degree-first coefficient list) at another
polynomial, by the Horner scheme. -/
def composeQ (p q : List ℚ) : List ℚ :=
  p.foldr (fun cj acc => trim (addQ [cj] (convolve q acc))) []

/-- Evaluation of a tail polynomial in LOG at a tail argument (the LOG
substitution of shift), by the Horner scheme. -/
def tailCompose (t : List PSer) (arg : List PSer) : List PSer :=
  t.foldr (fun c acc => trimT (addT [c] (mulT arg acc))) []

/-- shift of a discrete series by an integer i: the zero series is returned
unchanged; otherwise the shift-quotient certificate is computed at the
working precision (the minimum coefficient precision of the expansion),
multiplied into the expansion re-expressed through the truncated binomial
series for (x+i)^(-1/ram), and log(x) is shifted by the truncated expansion
of log(1+i/x); the result is renormalized through the constructor.  The
integer quotient m = ram / gamma.den mirrors the exact division at the
normalized call sites.  The source extracts the subexponential coefficients
with a Python 2 list comprehension whose loop variable leaks into the method
scope: whenever M = max(deg(subexp), gamma.denominator()) is at least 2 the
comprehension's last index M - 1 overwrites the shift argument i, and the
caller's shift amount is silently discarded in everything that follows; the
rebinding is reproduced here by shadowing i. -/
def DiscreteGeneralizedSeries.shift (A : DiscreteGeneralizedSeries) (i : ℤ) :
    Res DiscreteGeneralizedSeries :=
  if A.expansion.isEmpty then .ok A
  else
    let prec := minPrecT A.expansion
    let M : ℤ := max ((trim A.subexp).length - 1 : ℤ) (A.gamma.den : ℤ)
    let subexpCoeffs :=
      (List.range (M.toNat - 1)).map
        (fun j => A.subexp.getD (j + 1) 0)
    let i := if 2 ≤ M then M - 1 else i
    let m := A.ramification / A.gamma.den
    match generalizedSeriesShiftQuotient prec i A.gamma A.rho (subexpCoeffs, m) A.alpha with
    | .raised err => .raised err
    | .ok factor0 =>
      let factor := (trim factor0).reverse
      match prec with
      | none => .raised .infinitePrecision
      | some p =>
        let ram := A.ramification
        let xShifted : List ℚ :=
          0 :: (List.range (p + 1)).foldl
            (fun acc k => trim (addQ acc (monomialQ (ram * k)
              (binomialQ (-(1 : ℚ) / (ram : ℚ)) k * (i : ℚ) ^ k)))) []
        let expansion1 := mapNZ
          (fun c => ⟨trim ((convolve factor (composeQ c.coeffs xShifted)).take p), some p⟩)
          A.expansion
        let logxShifted : List ℚ := (List.range p).foldl
          (fun acc k0 =>
            trim (addQ acc (monomialQ (ram * (k0 + 1))
              (-((-(i : ℚ)) ^ (k0 + 1) / ((k0 : ℚ) + 1)))))) []
        let expansion2 := tailCompose expansion1 [⟨trim logxShifted, none⟩, PSer.one]
        mkDGS A.gamma ram A.rho A.subexp A.alpha expansion2

/-- Well-formed truncated series: normalized coefficients that fit below the
precision (the representation the host ring maintains). -/
def wfPSer (c : PSer) : Bool :=
  decide (c.coeffs = trim c.coeffs) &&
    (match c.prec with
     | none => true
     | some n => c.coeffs.length ≤ n)

/-- Well-formed tail: normalized as a polynomial, with well-formed coefficients. -/
def wfTail (t : List PSer) : Bool :=
  decide (t = trimT t) && t.all wfPSer

/-- The invariants the normalizing continuous constructor establishes: the
zero series is the canonical zero; a nonzero series has positive ramification,
normalized representations, minimal tail valuation zero, and its ramification
equal to the recomputed exponent-denominator lcm. -/
def ContinuousGeneralizedSeries.normalizedb (A : ContinuousGeneralizedSeries) : Bool :=
  if A.tail.isEmpty then decide (A = zeroC)
  else
    decide (0 < A.ramification) && decide (A.exp = trim A.exp) && wfTail A.tail
      && (minValT A.tail == 0) && (newRamC A.ramification A.exp A.tail == A.ramification)


/-- Forget the precision of a series, keeping its coefficients: the effect of
the ramification-reduction rebuild on a coefficient. -/
def PSer.exactify (c : PSer) : PSer := ⟨c.coeffs, none⟩


/-- A normalized sample with ramification 2 forced by the exponential part,
while the tail alone only needs ramification 1. -/
def sampleNormalized : ContinuousGeneralizedSeries := ⟨2, [0, 1], [⟨[1, 0, 1], some 4⟩]⟩

/-- A series with exponential part 1/2: not similar to the one series over
the integer reference set. -/
def halfExpSeries : ContinuousGeneralizedSeries := ⟨1, [1/2], [⟨[1], none⟩]⟩

/-- A discrete series with exponential rate 2: not similar to the discrete
one series. -/
def rhoTwoD : DiscreteGeneralizedSeries := ⟨0, 1, 2, [], 0, [PSer.one]⟩

/-- A nonzero discrete series with superexponential rate gamma = 1/2 at
finite working precision 2: its subexp-comprehension bound
max(deg(subexp), gamma.denominator()) = 2 triggers the loop-variable leak
in the shift method. -/
def halfGammaD : DiscreteGeneralizedSeries := ⟨1/2, 2, 1, [], 0, [⟨[1], some 2⟩]⟩

theorem getD_of_trim_eq_nil {l : List ℚ} (h : trim l = []) (i : ℕ) : l.getD i 0 = 0 := by
  induction l generalizing i with
  | nil => simp
  | cons a as ih =>
    revert h
    cases hta : trim as with
    | nil =>
      simp only [trim, hta]
      intro h
      have ha : a = 0 := by
        by_cases h0 : a = 0
        · exact h0
        · simp [h0] at h
      cases i with
      | zero => simpa using ha
      | succ j => simpa using ih hta j
    | cons b bs => simp [trim, hta]

theorem getD_trim (l : List ℚ) (i : ℕ) : (trim l).getD i 0 = l.getD i 0 := by
  induction l generalizing i with
  | nil => simp [trim]
  | cons a as ih =>
    cases hta : trim as with
    | nil =>
      by_cases h0 : a = 0
      · simp only [trim, hta, if_pos h0]
        cases i with
        | zero => simp [h0]
        | succ j => simpa using (getD_of_trim_eq_nil hta j).symm
      · simp only [trim, hta, if_neg h0]
        cases i with
        | zero => simp
        | succ j =>
          have := ih j
          rw [hta] at this
          simpa using this
    | cons b bs =>
      simp only [trim, hta]
      cases i with
      | zero => simp
      | succ j =>
        have := ih j
        rw [hta] at this
        simpa [this]
        
theorem trim_eq_nil_of_getD {l : List ℚ} (h : ∀ i, l.getD i 0 = 0) : trim l = [] := by
  induction l with
  | nil => rfl
  | cons a as ih =>
    have hta : trim as = [] := ih (fun i => by simpa using h (i + 1))
    have ha : a = 0 := by simpa using h 0
    simp [trim, hta, ha]

theorem trim_eq_trim_of_getD {l₁ l₂ : List ℚ} (h : ∀ i, l₁.getD i 0 = l₂.getD i 0) :
    trim l₁ = trim l₂ := by
  induction l₁ generalizing l₂ with
  | nil =>
    have : trim l₂ = [] := trim_eq_nil_of_getD (fun i => by simpa using (h i).symm)
    simp [trim, this]
  | cons a as ih =>
    cases l₂ with
    | nil =>
      exact trim_eq_nil_of_getD (fun i => by simpa using h i)
  
    | cons b bs =>
      have hab : a = b := by simpa using h 0
      have ht : trim as = trim bs := ih (fun i => by simpa using h (i + 1))
      cases hta : trim as with
      | nil =>
        rw [hta] at ht
        simp [trim, hta, ← ht.symm, hab]
      | cons c cs =>
        rw [hta] at ht
        simp [trim, hta, ← ht, hab]

theorem trim_trim (l : List ℚ) : trim (trim l) = trim l :=
  trim_eq_trim_of_getD (fun i => getD_trim l i)

theorem addQ_getD (a b : List ℚ) (i : ℕ) :
    (addQ a b).getD i 0 = a.getD i 0 + b.getD i 0 := by
  induction a generalizing b i with
  | nil => simp [addQ]
  | cons x xs ih =>
    cases b with
    | nil => simp [addQ]
    | cons y ys =>
      cases i with
      | zero => simp [addQ]
      | succ j => simpa [addQ] using ih ys j

theorem addQ_nil_right (a : List ℚ) : addQ a [] = a := by
  cases a <;> rfl

theorem getD_replicate_zero (n i : ℕ) : (List.replicate n (0 : ℚ)).getD i 0 = 0 := by
  induction n generalizing i with
  | zero => simp
  | succ m ih =>
    cases i with
    | zero => simp
    | succ j => simp only [List.replicate, List.getD_cons_succ]; exact ih j

theorem map_mul_one_getD (l : List ℚ) (i : ℕ) :
    (l.map (fun b => 1 * b)).getD i 0 = l.getD i 0 := by
  induction l generalizing i with
  | nil => simp
  | cons x xs ih =>
    cases i with
    | zero => simp
    | succ j => simp only [List.map_cons, List.getD_cons_succ]; exact ih j

theorem convolve_one_getD (l : List ℚ) (i : ℕ) :
    (convolve [1] l).getD i 0 = l.getD i 0 := by
  have h1 : convolve [1] l = addQ (l.map (fun b => 1 * b)) [0] := by
    simp [convolve]
  rw [h1, addQ_getD, map_mul_one_getD]
  cases i with
  | zero => simp
  | succ j => simp

theorem ptrunc_getD (p : Prec) (l : List ℚ) (i : ℕ) :
    (ptrunc p l).getD i 0 = match p with
      | none => l.getD i 0
      | some n => if i < n then l.getD i 0 else 0 := by
  cases p with
  | none => rfl
  | some n =>
    simp only [ptrunc]
    simp [List.getD_eq_getElem?_getD, List.getElem?_take]
    by_cases h : i < n <;> simp [h]

theorem ptrunc_of_wf {p : Prec} {l : List ℚ}
    (h : match p with | none => True | some n => l.length ≤ n) : ptrunc p l = l := by
  cases p with
  | none => rfl
  | some n => exact List.take_of_length_le h

theorem stretch_getD {q : ℕ} (hq : 0 < q) (l : List ℚ) (i : ℕ) :
    (stretch q l).getD i 0 = if q ∣ i then l.getD (i / q) 0 else 0 := by
  induction l generalizing i with
  | nil => simp [stretch]
  | cons a as ih =>
    cases i with
    | zero => simp [stretch, Nat.dvd_zero, Nat.zero_div]
    | succ j =>
      simp only [stretch, List.getD_cons_succ]
      by_cases hj : j < q - 1
      · rw [List.getD_append _ _ _ _ (by simpa using hj)]
        rw [getD_replicate_zero]
        have hnd : ¬ q ∣ (j + 1) := by
          intro hdvd
          rcases hdvd with ⟨c, hc⟩
          rcases Nat.eq_zero_or_pos c with rfl | hc0
          · omega
          · have : q ≤ j + 1 := by
              calc q = q * 1 := by omega
              _ ≤ q * c := Nat.mul_le_mul_left q hc0
              _ = j + 1 := hc.symm
            omega
        simp [hnd]
      · rw [List.getD_append_right _ _ _ _ (by simpa using Nat.le_of_not_lt hj)]
        have hlen : (List.replicate (q - 1) (0:ℚ)).length = q - 1 := by simp
        rw [hlen]
        have hsub : j - (q - 1) = (j + 1) - q := by omega
        rw [hsub, ih]
        have hle : q ≤ j + 1 := by omega
        have hiff : q ∣ (j + 1 - q) ↔ q ∣ (j + 1) := by
          constructor
          · intro h
            have hj1 : j + 1 = (j + 1 - q) + q := by omega
            rw [hj1]
            exact Nat.dvd_add h (dvd_refl q)
          · intro h
            exact Nat.dvd_sub' h (dvd_refl q)
        by_cases hdvd : q ∣ (j + 1)
        · have hdvd' : q ∣ (j + 1 - q) := hiff.mpr hdvd
          rcases hdvd with ⟨c, hc⟩
          have hc1 : 1 ≤ c := by
            rcases Nat.eq_zero_or_pos c with rfl | h1
            · omega
            · omega
          have hmul : q * c - q = q * (c - 1) := by
            cases c with
            | zero => omega
            | succ m =>
              rw [Nat.mul_succ]
              simp
          have hdiv : (j + 1 - q) / q = (j + 1) / q - 1 := by
            rw [hc, Nat.mul_div_cancel_left _ hq, hmul, Nat.mul_div_cancel_left _ hq]
          rw [if_pos hdvd', if_pos ⟨c, hc⟩, hdiv]
          have hpos : 1 ≤ (j + 1) / q := by
            rw [hc, Nat.mul_div_cancel_left _ hq]
            omega
          cases hd : (j + 1) / q with
          | zero => omega
          | succ k => simp
        · have hdvd' : ¬ q ∣ (j + 1 - q) := fun h => hdvd (hiff.mp h)
          simp [hdvd, hdvd']

theorem everyNth_getD {q : ℕ} (hq : 0 < q) (l : List ℚ) (j : ℕ) :
    (everyNth q l).getD j 0 = l.getD (j * q) 0 := by
  unfold everyNth
  set n := (l.length + q - 1) / q with hn
  by_cases hj : j < n
  · rw [List.getD_eq_getElem?_getD, List.getElem?_map, List.getElem?_range hj]
    simp [List.getD_eq_getElem?_getD]
  · have h1 : ((List.range n).map (fun j => l.getD (j * q) 0)).length = n := by simp
    rw [List.getD_eq_default _ _ (by omega : ((List.range n).map
      (fun j => l.getD (j * q) 0)).length ≤ j)]
    have hlen : l.length ≤ j * q := by
      have hjn : n ≤ j := by omega
      have hdm := Nat.div_add_mod (l.length + q - 1) q
      have hmod := Nat.mod_lt (l.length + q - 1) hq
      have h3 : l.length ≤ q * n := by rw [hn]; omega
      calc l.length ≤ q * n := h3
      _ ≤ q * j := Nat.mul_le_mul_left q hjn
      _ = j * q := Nat.mul_comm q j
    exact (List.getD_eq_default _ _ hlen).symm

theorem stretch_everyNth_trim {q : ℕ} (hq : 0 < q) {l : List ℚ}
    (hdvd : ∀ i, l.getD i 0 ≠ 0 → q ∣ i) :
    trim (stretch q (trim (everyNth q l))) = trim l := by
  apply trim_eq_trim_of_getD
  intro i
  rw [stretch_getD hq]
  by_cases hd : q ∣ i
  · rw [if_pos hd, getD_trim, everyNth_getD hq, Nat.div_mul_cancel hd]
  · rw [if_neg hd]
    by_cases hz : l.getD i 0 = 0
    · exact hz.symm
    · exact absurd (hdvd i hz) hd

theorem expDen_dvd {ram : ℕ} (e : ℕ) : expDen e ram ∣ ram := by
  unfold expDen
  have h : (e : ℚ) / (ram : ℚ) = Rat.divInt (e : ℤ) (ram : ℤ) := by
    rw [Rat.divInt_eq_div]
    norm_num
  rw [h]
  have := Rat.den_dvd (e : ℤ) (ram : ℤ)
  exact_mod_cast this

theorem den_mul_int (qv : ℚ) (d : ℕ) (h : qv.den ∣ d) :
    ∃ z : ℤ, qv * (d : ℚ) = (z : ℚ) := by
  refine ⟨qv.num * ((d / qv.den : ℕ) : ℤ), ?_⟩
  have hden : ((qv.den : ℚ)) ≠ 0 := by
    exact_mod_cast qv.den_nz
  have hcast : ((d / qv.den : ℕ) : ℚ) * (qv.den : ℚ) = (d : ℚ) := by
    rw [← Nat.cast_mul, Nat.div_mul_cancel h]
  have hqd : qv * (qv.den : ℚ) = (qv.num : ℚ) := by
    nth_rewrite 1 [← Rat.num_div_den qv]
    exact div_mul_cancel₀ _ hden
  calc qv * (d : ℚ) = qv * (((d / qv.den : ℕ) : ℚ) * (qv.den : ℚ)) := by rw [hcast]
  _ = (qv * (qv.den : ℚ)) * ((d / qv.den : ℕ) : ℚ) := by ring
  _ = ((qv.num : ℚ)) * ((d / qv.den : ℕ) : ℚ) := by rw [hqd]
  _ = ((qv.num * ((d / qv.den : ℕ) : ℤ) : ℤ) : ℚ) := by
      rw [Int.cast_mul, Int.cast_natCast]

theorem dvd_of_expDen_dvd {ram d e : ℕ} (hram : 0 < ram) (hd : d ∣ ram)
    (h : expDen e ram ∣ d) : (ram / d) ∣ e := by
  have hd0 : 0 < d := Nat.pos_of_dvd_of_pos hd hram
  obtain ⟨z, hz⟩ := den_mul_int ((e : ℚ) / (ram : ℚ)) d h
  have hrq : ((ram : ℚ)) ≠ 0 := by
    exact_mod_cast Nat.pos_iff_ne_zero.mp hram
  have he : ((e : ℚ) / (ram : ℚ)) * (ram : ℚ) = (e : ℚ) := div_mul_cancel₀ _ hrq
  have hed : ((e * d : ℕ) : ℚ) = ((z * ram : ℤ) : ℚ) := by
    push_cast
    calc (e : ℚ) * (d : ℚ) = (((e : ℚ) / (ram : ℚ)) * (ram : ℚ)) * d := by rw [he]
    _ = (((e : ℚ) / (ram : ℚ)) * d) * ram := by ring
    _ = (z : ℚ) * ram := by rw [hz]
  have hedZ : ((e * d : ℕ) : ℤ) = z * (ram : ℤ) := by
    exact_mod_cast hed
  have hdvdZ : ((ram : ℕ) : ℤ) ∣ ((e * d : ℕ) : ℤ) := ⟨z, by rw [hedZ, mul_comm]⟩
  have hdvdN : ram ∣ e * d := by exact_mod_cast hdvdZ
  have hfac : (ram / d) * d = ram := Nat.div_mul_cancel hd
  rw [← hfac] at hdvdN
  exact (Nat.mul_dvd_mul_iff_right hd0).mp hdvdN

theorem lcmDenFrom_dvd {ram : ℕ} (i : ℕ) (l : List ℚ) : lcmDenFrom ram i l ∣ ram := by
  induction l generalizing i with
  | nil => exact Nat.one_dvd ram
  | cons c cs ih =>
    by_cases hc : c = 0
    · simpa [lcmDenFrom, hc] using ih (i + 1)
    · simpa [lcmDenFrom, hc] using Nat.lcm_dvd (expDen_dvd i) (ih (i + 1))

theorem lcmDenFrom_pos {ram : ℕ} (i : ℕ) (l : List ℚ) : 0 < lcmDenFrom ram i l := by
  induction l generalizing i with
  | nil => exact Nat.one_pos
  | cons c cs ih =>
    by_cases hc : c = 0
    · simpa [lcmDenFrom, hc] using ih (i + 1)
    · simp only [lcmDenFrom, hc, if_neg]
      have h1 : expDen i ram ≠ 0 := Nat.pos_iff_ne_zero.mp ((((i : ℚ) / (ram : ℚ))).den_pos)
      have h2 : lcmDenFrom ram (i + 1) cs ≠ 0 := Nat.pos_iff_ne_zero.mp (ih (i + 1))
      simpa [hc] using Nat.pos_of_ne_zero (Nat.lcm_ne_zero h1 h2)

theorem expDen_dvd_lcmDenFrom {ram : ℕ} {l : List ℚ} {j : ℕ} (h : l.getD j 0 ≠ 0)
    (i : ℕ) : expDen (i + j) ram ∣ lcmDenFrom ram i l := by
  induction l generalizing i j with
  | nil => simp at h
  | cons c cs ih =>
    cases j with
    | zero =>
      have hc : c ≠ 0 := by simpa using h
      simpa [lcmDenFrom, hc] using Nat.dvd_lcm_left _ _
    | succ j' =>
      have h' : cs.getD j' 0 ≠ 0 := by simpa using h
      have := ih h' (i + 1)
      have harith : i + 1 + j' = i + (j' + 1) := by omega
      rw [harith] at this
      by_cases hc : c = 0
      · simpa [lcmDenFrom, hc] using this
      · simp only [lcmDenFrom, hc, if_neg]
        exact dvd_trans this (by simpa [hc] using Nat.dvd_lcm_right (expDen i ram) _)

theorem tailRamFold_lcm (ram a b : ℕ) (t : List PSer) :
    tailRamFold ram (Nat.lcm a b) t = Nat.lcm a (tailRamFold ram b t) := by
  induction t generalizing b with
  | nil => rfl
  | cons c cs ih =>
    by_cases hc : c.isZero
    · simpa [tailRamFold, hc] using ih b
    · show tailRamFold ram (if c.isZero then Nat.lcm a b
        else Nat.lcm (Nat.lcm a b) (lcmDenPS ram c)) cs
        = Nat.lcm a (tailRamFold ram (if c.isZero then b
            else Nat.lcm b (lcmDenPS ram c)) cs)
      rw [if_neg (by simp [hc]), if_neg (by simp [hc])]
      rw [Nat.lcm_assoc a b (lcmDenPS ram c)]
      exact ih (Nat.lcm b (lcmDenPS ram c))

theorem tailRamFold_start (ram a : ℕ) (t : List PSer) :
    tailRamFold ram a t = Nat.lcm a (tailRamFold ram 1 t) := by
  have h := tailRamFold_lcm ram a 1 t
  rwa [Nat.lcm_one_right] at h

theorem tailRamFold_dvd {ram a : ℕ} (ha : a ∣ ram) (t : List PSer) :
    tailRamFold ram a t ∣ ram := by
  induction t generalizing a with
  | nil => exact ha
  | cons c cs ih =>
    by_cases hc : c.isZero
    · simpa [tailRamFold, hc] using ih ha
    · simp only [tailRamFold, List.foldl_cons]
      rw [if_neg (by simp [hc])]
      exact ih (Nat.lcm_dvd ha (lcmDenFrom_dvd 0 c.coeffs))

theorem tailRamFold_pos {ram a : ℕ} (ha : 0 < a) (t : List PSer) :
    0 < tailRamFold ram a t := by
  induction t generalizing a with
  | nil => exact ha
  | cons c cs ih =>
    by_cases hc : c.isZero
    · simpa [tailRamFold, hc] using ih ha
    · simp only [tailRamFold, List.foldl_cons]
      rw [if_neg (by simp [hc])]
      exact ih (Nat.pos_of_ne_zero (Nat.lcm_ne_zero (Nat.pos_iff_ne_zero.mp ha)
        (Nat.pos_iff_ne_zero.mp (lcmDenFrom_pos 0 c.coeffs))))

theorem tailRamFold_congr {ram a : ℕ} {t : List PSer} {f : PSer → PSer}
    (hf : ∀ c ∈ t, (f c).coeffs = c.coeffs) :
    tailRamFold ram a (t.map f) = tailRamFold ram a t := by
  induction t generalizing a with
  | nil => rfl
  | cons c cs ih =>
    have hc := hf c (List.mem_cons_self c cs)
    have hz : (f c).isZero = c.isZero := by simp [PSer.isZero, hc]
    simp only [List.map_cons, tailRamFold, List.foldl_cons]
    rw [hz]
    by_cases hcz : c.isZero
    · simp only [hcz, if_pos]
      exact ih (fun x hx => hf x (List.mem_cons_of_mem c hx))
    · rw [if_neg (by simp [hcz]), if_neg (by simp [hcz])]
      have : lcmDenPS ram (f c) = lcmDenPS ram c := by simp [lcmDenPS, hc]
      rw [this]
      exact ih (fun x hx => hf x (List.mem_cons_of_mem c hx))

theorem trimT_map {f : PSer → PSer} {l : List PSer}
    (hf : ∀ c ∈ l, (f c).isZero = c.isZero) : trimT (l.map f) = (trimT l).map f := by
  induction l with
  | nil => rfl
  | cons c cs ih =>
    have ih' := ih (fun x hx => hf x (List.mem_cons_of_mem c hx))
    have hc := hf c (List.mem_cons_self c cs)
    simp only [List.map_cons, trimT, ih']
    cases hcs : trimT cs with
    | nil =>
      simp only [List.map_nil, hc]
      by_cases hz : c.isZero <;> simp [hz]
    | cons d ds => simp

theorem trimT_eq_self_getD {l : List PSer} (h : l = trimT l) : trimT l = l := h.symm

theorem minValT_congr {t : List PSer} {f : PSer → PSer}
    (hf : ∀ c ∈ t, (f c).coeffs = c.coeffs) : minValT (t.map f) = minValT t := by
  unfold minValT
  have : (t.map f).filter (fun c => !c.isZero) = (t.filter (fun c => !c.isZero)).map f := by
    induction t with
    | nil => rfl
    | cons c cs ih =>
      have hc := hf c (List.mem_cons_self c cs)
      have ih' := ih (fun x hx => hf x (List.mem_cons_of_mem c hx))
      have hz : (f c).isZero = c.isZero := by simp [PSer.isZero, hc]
      by_cases hcz : c.isZero <;> simp [List.filter_cons, hz, hcz, ih']
  rw [this]
  have hval : ((t.filter (fun c => !c.isZero)).map f).map PSer.valuation
      = (t.filter (fun c => !c.isZero)).map PSer.valuation := by
    rw [List.map_map]
    apply List.map_congr_left
    intro c hc
    have hcmem : c ∈ t := List.mem_of_mem_filter hc
    simp [Function.comp, PSer.valuation, hf c hcmem]
  rw [hval]

theorem newRamC_congr {ram : ℕ} {e : List ℚ} {t : List PSer} {f : PSer → PSer}
    (hf : ∀ c ∈ t, (f c).coeffs = c.coeffs) :
    newRamC ram e (t.map f) = newRamC ram e t := by
  unfold newRamC
  by_cases h : lcmDenE ram e < ram
  · simp only [h, if_pos]
    exact tailRamFold_congr hf
  · simp [h]

theorem pmin_none_left (p : Prec) : pmin none p = p := by cases p <;> rfl

theorem pmin_none_right (p : Prec) : pmin p none = p := by cases p <;> rfl

theorem wfPSer_trim {c : PSer} (h : wfPSer c = true) : trim c.coeffs = c.coeffs := by
  unfold wfPSer at h
  simp only [Bool.and_eq_true, decide_eq_true_eq] at h
  exact h.1.symm

theorem wfPSer_len {c : PSer} (h : wfPSer c = true) :
    match c.prec with | none => True | some n => c.coeffs.length ≤ n := by
  unfold wfPSer at h
  simp only [Bool.and_eq_true, decide_eq_true_eq] at h
  have := h.2
  cases hp : c.prec with
  | none => trivial
  | some n =>
    rw [hp] at this
    simpa using this

theorem PSer.mul_one_left {c : PSer} (h : wfPSer c = true) : PSer.mul PSer.one c = c := by
  have hp : pmin (none : Prec) c.prec = c.prec := pmin_none_left c.prec
  have hco : trim (ptrunc (pmin (none : Prec) c.prec) (convolve [1] c.coeffs)) = c.coeffs := by
    rw [hp]
    have h1 : ∀ i, (ptrunc c.prec (convolve [1] c.coeffs)).getD i 0 = c.coeffs.getD i 0 := by
      intro i
      rw [ptrunc_getD]
      cases hq : c.prec with
      | none => simpa using convolve_one_getD c.coeffs i
      | some n =>
        by_cases hi : i < n
        · simpa [hi] using convolve_one_getD c.coeffs i
        · show (if i < n then (convolve [1] c.coeffs).getD i 0 else 0) = c.coeffs.getD i 0
          rw [if_neg hi]
          have hlen := wfPSer_len h
          rw [hq] at hlen
          have hlen2 : c.coeffs.length ≤ n := hlen
          exact (List.getD_eq_default _ _ (by omega)).symm
    have h2 := trim_eq_trim_of_getD h1
    rw [h2, wfPSer_trim h]
  show (⟨trim (ptrunc (pmin (none : Prec) c.prec) (convolve [1] c.coeffs)),
    pmin (none : Prec) c.prec⟩ : PSer) = c
  rw [hco, hp]

theorem addQ_nil_left (a : List ℚ) : addQ [] a = a := by cases a <;> rfl

theorem PSer.add_zero_right {c : PSer} (h : wfPSer c = true) :
    PSer.add c PSer.zero = c := by
  have hp : pmin c.prec none = c.prec := pmin_none_right c.prec
  have hco : trim (ptrunc (pmin c.prec (none : Prec)) (addQ c.coeffs [])) = c.coeffs := by
    rw [hp, addQ_nil_right]
    rw [ptrunc_of_wf (wfPSer_len h), wfPSer_trim h]
  show (⟨trim (ptrunc (pmin c.prec (none : Prec)) (addQ c.coeffs [])),
    pmin c.prec (none : Prec)⟩ : PSer) = c
  rw [hco, hp]

theorem addT_nil_right (l : List PSer) : addT l [] = l := by cases l <;> rfl

theorem wfTail_trimT {t : List PSer} (h : wfTail t = true) : trimT t = t := by
  unfold wfTail at h
  simp only [Bool.and_eq_true, decide_eq_true_eq] at h
  exact h.1.symm

theorem wfTail_all {t : List PSer} (h : wfTail t = true) : ∀ c ∈ t, wfPSer c = true := by
  unfold wfTail at h
  simp only [Bool.and_eq_true, decide_eq_true_eq, List.all_eq_true] at h
  exact h.2

theorem mulT_one {l : List PSer} (h : wfTail l = true) : mulT [PSer.one] l = l := by
  cases l with
  | nil => rfl
  | cons c cs =>
    have hc : PSer.mul PSer.one c = c := PSer.mul_one_left (wfTail_all h c (by simp))
    have hcs : cs.map (fun b => PSer.mul PSer.one b) = cs := by
      have := List.map_congr_left
        (fun x hx => PSer.mul_one_left (wfTail_all h x (List.mem_cons_of_mem c hx)))
      rw [this]
      exact List.map_id cs
    have hz : PSer.add (PSer.mul PSer.one c) PSer.zero = c := by
      rw [hc]
      exact PSer.add_zero_right (wfTail_all h c (by simp))
    show trimT (addT (PSer.mul PSer.one c :: cs.map (fun b => PSer.mul PSer.one b))
      (PSer.zero :: mulTAux [] (c :: cs))) = c :: cs
    show trimT (PSer.add (PSer.mul PSer.one c) PSer.zero ::
      addT (cs.map (fun b => PSer.mul PSer.one b)) (mulTAux [] (c :: cs))) = c :: cs
    have hx : mulTAux [] (c :: cs) = [] := rfl
    rw [hx, hz, hcs, addT_nil_right]
    exact wfTail_trimT h

theorem eqSage_self (c : PSer) : PSer.eqSage c c = true := by simp [PSer.eqSage]

theorem eqSage_exactify {c : PSer} (_h : wfPSer c = true) :
    PSer.eqSage ⟨c.coeffs, none⟩ c = true := by
  unfold PSer.eqSage
  simp only [pmin_none_left, decide_eq_true_eq]

theorem trim_replicate (n : ℕ) : trim (List.replicate n (0 : ℚ)) = [] :=
  trim_eq_nil_of_getD (fun i => getD_replicate_zero n i)

theorem trim_one_replicate (n : ℕ) : trim (1 :: List.replicate n (0 : ℚ)) = [1] := by
  have h := trim_replicate n
  simp [trim, h]

theorem PSer.inflate_one {q : ℕ} : PSer.inflate q PSer.one = PSer.one := by
  unfold PSer.inflate PSer.one
  simp only [stretch]
  rw [List.append_nil, trim_one_replicate]
  rfl

theorem everyNth_nil {q : ℕ} (hq : 0 < q) : everyNth q ([] : List ℚ) = [] := by
  unfold everyNth
  have : ((List.nil : List ℚ).length + q - 1) / q = 0 := Nat.div_eq_of_lt (by simp; omega)
  rw [this]
  rfl

theorem PSer.contract_one {q : ℕ} (hq : 0 < q) : PSer.contract q PSer.one = PSer.one := by
  unfold PSer.contract PSer.one
  have h1 : everyNth q [(1 : ℚ)] = [1] := by
    unfold everyNth
    have hl : (([(1:ℚ)]).length + q - 1) / q = 1 := by
      simp only [List.length_singleton]
      have h2 : 1 + q - 1 = q := by omega
      rw [h2, Nat.div_self hq]
    rw [hl]
    simp [List.range_succ]
  rw [h1]
  have h2 : trim [(1 : ℚ)] = [1] := by simp [trim]
  rw [h2]

theorem ne_nil_of_getD {l : List ℚ} {i : ℕ} (h : l.getD i 0 ≠ 0) : l ≠ [] := by
  intro hl
  rw [hl] at h
  simp at h

theorem exists_getD_ne_zero {l : List ℚ} (htrim : trim l = l) (hne : l ≠ []) :
    ∃ i, l.getD i 0 ≠ 0 := by
  by_contra hall
  push_neg at hall
  have : trim l = [] := trim_eq_nil_of_getD hall
  rw [htrim] at this
  exact hne this

theorem PSer.contract_isZero {q : ℕ} (hq : 0 < q) {c : PSer} (hwf : wfPSer c = true)
    (hdvd : ∀ i, c.coeffs.getD i 0 ≠ 0 → q ∣ i) :
    (PSer.contract q c).isZero = c.isZero := by
  unfold PSer.contract PSer.isZero
  by_cases hz : c.coeffs.isEmpty
  · have : c.coeffs = [] := by
      cases hco : c.coeffs
      · rfl
      · rw [hco] at hz; simp at hz
    rw [this, everyNth_nil hq]
    simp [hz, this, trim]
  · have hne : c.coeffs ≠ [] := by
      cases hco : c.coeffs
      · rw [hco] at hz; simp at hz
      · simp
    obtain ⟨i, hi⟩ := exists_getD_ne_zero (wfPSer_trim hwf) hne
    have hqd := hdvd i hi
    have : (trim (everyNth q c.coeffs)).getD (i / q) 0 ≠ 0 := by
      rw [getD_trim, everyNth_getD hq, Nat.div_mul_cancel hqd]
      exact hi
    have hne2 : trim (everyNth q c.coeffs) ≠ [] := ne_nil_of_getD this
    simp only [hz, Bool.false_eq_true]
    cases htr : trim (everyNth q c.coeffs)
    · exact absurd htr hne2
    · simp

theorem PSer.inflate_contract {q : ℕ} (hq : 0 < q) {c : PSer} (hwf : wfPSer c = true)
    (hdvd : ∀ i, c.coeffs.getD i 0 ≠ 0 → q ∣ i) :
    PSer.inflate q (PSer.contract q c) = ⟨c.coeffs, none⟩ := by
  unfold PSer.inflate PSer.contract
  simp only
  rw [stretch_everyNth_trim hq hdvd, wfPSer_trim hwf]
  rfl

theorem isEmpty_false_of_ne_nil {t : List PSer} (hne : t ≠ []) : t.isEmpty = false := by
  cases t with
  | nil => exact absurd rfl hne
  | cons c cs => rfl

theorem mkCGS_eval {t : List PSer} {e : List ℚ} {r : ℕ}
    (ht : trimT t = t) (hne : t ≠ []) (hmv : minValT t = 0) (he : trim e = e) :
    mkCGS t e r =
      if newRamC r e t ≠ r
      then ⟨newRamC r e t, trim (everyNth (r / newRamC r e t) e),
        trimT (t.map (PSer.contract (r / newRamC r e t)))⟩
      else ⟨r, e, t⟩ := by
  unfold mkCGS
  dsimp only
  rw [ht]
  rw [isEmpty_false_of_ne_nil hne]
  simp only [Bool.false_eq_true, if_false, he, hmv, if_pos rfl]
  simp only [if_true]

theorem trimT_one : trimT [PSer.one] = [PSer.one] := by
  simp [trimT, PSer.isZero, PSer.one]

theorem minValT_one : minValT [PSer.one] = 0 := by
  with_unfolding_all decide

theorem den_zero_div (ram : ℕ) : expDen 0 ram = 1 := by
  unfold expDen
  norm_num

theorem lcmDenPS_one (ram : ℕ) : lcmDenPS ram PSer.one = 1 := by
  unfold lcmDenPS PSer.one lcmDenFrom
  simp only [one_ne_zero, if_neg]
  rw [if_neg (by norm_num)]
  show Nat.lcm (expDen 0 ram) (lcmDenFrom ram 1 []) = 1
  rw [den_zero_div]
  show Nat.lcm 1 1 = 1
  simp

theorem newRamC_exp_one (ram : ℕ) (e : List ℚ) :
    newRamC ram e [PSer.one] = lcmDenE ram e := by
  unfold newRamC
  by_cases h : lcmDenE ram e < ram
  · rw [if_pos h]
    show tailRamFold ram (lcmDenE ram e) [PSer.one] = lcmDenE ram e
    unfold tailRamFold
    simp only [List.foldl_cons, List.foldl_nil]
    rw [if_neg (by simp [PSer.isZero, PSer.one])]
    rw [lcmDenPS_one, Nat.lcm_one_right]
  · rw [if_neg h]

theorem exponential_part_eval {A : ContinuousGeneralizedSeries}
    (hram : 0 < A.ramification) (hexp : trim A.exp = A.exp) :
    A.exponential_part =
      if lcmDenE A.ramification A.exp ≠ A.ramification
      then ⟨lcmDenE A.ramification A.exp,
        trim (everyNth (A.ramification / lcmDenE A.ramification A.exp) A.exp),
        [PSer.one]⟩
      else ⟨A.ramification, A.exp, [PSer.one]⟩ := by
  unfold ContinuousGeneralizedSeries.exponential_part
  rw [mkCGS_eval trimT_one (by simp) minValT_one hexp]
  rw [newRamC_exp_one]
  by_cases h : lcmDenE A.ramification A.exp ≠ A.ramification
  · rw [if_pos h, if_pos h]
    have hd : lcmDenE A.ramification A.exp ∣ A.ramification := lcmDenFrom_dvd 0 A.exp
    have hpos : 0 < lcmDenE A.ramification A.exp := lcmDenFrom_pos 0 A.exp
    have hquo : 0 < A.ramification / lcmDenE A.ramification A.exp :=
      Nat.div_pos (Nat.le_of_dvd hram hd) hpos
    rw [List.map_cons, List.map_nil, PSer.contract_one hquo, trimT_one]
  · rw [if_neg h, if_neg h]

theorem lcmDenE_nil (ram : ℕ) : lcmDenE ram [] = 1 := rfl

theorem tailPart_eval {A : ContinuousGeneralizedSeries} (hram : 0 < A.ramification)
    (hwf : wfTail A.tail = true) (hne : A.tail ≠ []) (hmv : minValT A.tail = 0) :
    A.tailPart =
      if tailRamFold A.ramification 1 A.tail = A.ramification
      then ⟨A.ramification, [], A.tail⟩
      else ⟨tailRamFold A.ramification 1 A.tail, [],
        trimT (A.tail.map
          (PSer.contract (A.ramification / tailRamFold A.ramification 1 A.tail)))⟩ := by
  unfold ContinuousGeneralizedSeries.tailPart
  rw [mkCGS_eval (wfTail_trimT hwf) hne hmv (show trim [] = [] from rfl)]
  unfold newRamC
  rw [lcmDenE_nil]
  by_cases h1 : 1 < A.ramification
  · rw [if_pos h1]
    by_cases h2 : tailRamFold A.ramification 1 A.tail = A.ramification
    · rw [if_neg (by simpa using h2), if_pos h2]
    · rw [if_pos h2, if_neg h2]
      have hd2 : tailRamFold A.ramification 1 A.tail ∣ A.ramification :=
        tailRamFold_dvd (Nat.one_dvd _) A.tail
      have hd2pos : 0 < tailRamFold A.ramification 1 A.tail :=
        tailRamFold_pos Nat.one_pos A.tail
      have hquo : 0 < A.ramification / tailRamFold A.ramification 1 A.tail :=
        Nat.div_pos (Nat.le_of_dvd hram hd2) hd2pos
      rw [everyNth_nil hquo]
      rfl
  · have hr1 : A.ramification = 1 := by omega
    rw [if_neg h1]
    have hd2 : tailRamFold A.ramification 1 A.tail ∣ A.ramification :=
      tailRamFold_dvd (Nat.one_dvd _) A.tail
    rw [hr1] at hd2 ⊢
    have h2 : tailRamFold 1 1 A.tail = 1 := Nat.eq_one_of_dvd_one hd2
    rw [h2]
    simp

theorem lcmDenPS_dvd_tailRamFold {ram : ℕ} {t : List PSer} {c : PSer} (hc : c ∈ t)
    (a : ℕ) : c.isZero = false → lcmDenPS ram c ∣ tailRamFold ram a t := by
  induction t generalizing a with
  | nil => simp at hc
  | cons d ds ih =>
    intro hz
    rcases List.mem_cons.mp hc with rfl | hmem
    · show lcmDenPS ram c ∣ tailRamFold ram
        (if c.isZero then a else Nat.lcm a (lcmDenPS ram c)) ds
      rw [hz]
      rw [if_neg (by simp)]
      rw [tailRamFold_start]
      exact dvd_trans (Nat.dvd_lcm_right a _) (Nat.dvd_lcm_left _ _)
    · show lcmDenPS ram c ∣ tailRamFold ram
        (if d.isZero then a else Nat.lcm a (lcmDenPS ram d)) ds
      by_cases hd : d.isZero
      · rw [if_pos hd]
        exact ih hmem a hz
      · rw [if_neg hd]
        exact ih hmem _ hz

theorem tailEqSage_refl (t : List PSer) : tailEqSage t t = true := by
  unfold tailEqSage
  simp only [beq_self_eq_true, Bool.true_and]
  rw [List.all_eq_true]
  induction t with
  | nil => simp
  | cons c cs ih =>
    intro p hp
    simp only [List.zip_cons_cons, List.mem_cons] at hp
    rcases hp with rfl | hmem
    · exact eqSage_self c
    · exact ih p hmem

theorem tailEqSage_map {t : List PSer} {g : PSer → PSer}
    (hg : ∀ c ∈ t, PSer.eqSage (g c) c = true) : tailEqSage (t.map g) t = true := by
  unfold tailEqSage
  simp only [List.length_map, beq_self_eq_true, Bool.true_and]
  rw [List.all_eq_true]
  induction t with
  | nil => simp
  | cons c cs ih =>
    intro p hp
    simp only [List.map_cons, List.zip_cons_cons, List.mem_cons] at hp
    rcases hp with rfl | hmem
    · exact hg c (by simp)
    · exact ih (fun x hx => hg x (List.mem_cons_of_mem c hx)) p hmem

theorem exactify_isZero (c : PSer) : (PSer.exactify c).isZero = c.isZero := rfl

theorem exactify_coeffs (c : PSer) : (PSer.exactify c).coeffs = c.coeffs := rfl

theorem wfTail_exactify {t : List PSer} (hwf : wfTail t = true) :
    wfTail (t.map PSer.exactify) = true := by
  unfold wfTail
  simp only [Bool.and_eq_true, decide_eq_true_eq, List.all_eq_true]
  constructor
  · rw [trimT_map (fun c _ => exactify_isZero c), wfTail_trimT hwf]
  · intro x hx
    obtain ⟨c, hc, rfl⟩ := List.mem_map.mp hx
    have hwfc := wfTail_all hwf c hc
    have h1 : trim c.coeffs = c.coeffs := wfPSer_trim hwfc
    unfold wfPSer PSer.exactify
    simp [h1]

theorem roundtrip_core {r : ℕ} {E : List ℚ} {T T' : List PSer} (hE : trim E = E)
    (hwf : wfTail T = true) (hne : T ≠ []) (hmv : minValT T = 0)
    (hstag : newRamC r E T = r)
    (hT' : T' = T ∨ T' = T.map PSer.exactify) :
    (mkCGS (mulT [PSer.one] T') (trim (addQ E [])) r).eq ⟨r, E, T⟩ = true := by
  have hwf' : wfTail T' = true := by
    rcases hT' with rfl | rfl
    · exact hwf
    · exact wfTail_exactify hwf
  have hne' : T' ≠ [] := by
    rcases hT' with rfl | rfl
    · exact hne
    · intro h
      cases hT : T with
      | nil => exact hne hT
      | cons c cs => rw [hT] at h; simp at h
  have hmv' : minValT T' = 0 := by
    rcases hT' with rfl | rfl
    · exact hmv
    · rw [minValT_congr (fun c _ => exactify_coeffs c)]
      exact hmv
  have hnr' : newRamC r E T' = r := by
    rcases hT' with rfl | rfl
    · exact hstag
    · rw [newRamC_congr (fun c _ => exactify_coeffs c)]
      exact hstag
  rw [mulT_one hwf', addQ_nil_right, hE]
  rw [mkCGS_eval (wfTail_trimT hwf') hne' hmv' hE]
  rw [if_neg (by rw [hnr']; omega)]
  unfold ContinuousGeneralizedSeries.eq
  show ((r == r) && decide (E = E) && tailEqSage T' T) = true
  have h1 : (r == r) = true := by simp
  have h2 : decide (E = E) = true := by simp
  rw [h1, h2]
  simp only [Bool.true_and, Bool.and_true]
  rcases hT' with rfl | rfl
  · exact tailEqSage_refl _
  · exact tailEqSage_map (fun c hc => eqSage_exactify (wfTail_all hwf c hc))

theorem inflate_self {A : ContinuousGeneralizedSeries} {s : ℕ} (h : s = A.ramification) :
    A.inflate s = (A.exp, A.tail) := by
  unfold ContinuousGeneralizedSeries.inflate
  rw [if_pos h]

theorem mapNZ_one (q : ℕ) : mapNZ (PSer.inflate q) [PSer.one] = [PSer.one] := by
  unfold mapNZ
  have h1 : PSer.one.isZero = false := rfl
  simp only [List.map_cons, List.map_nil, h1, Bool.false_eq_true, if_false,
    PSer.inflate_one]
  exact trimT_one

theorem inflate_exp_contracted {r d : ℕ} {E : List ℚ} (hram : 0 < r) (hd : d ∣ r)
    (hdne : d ≠ r) (hE : trim E = E)
    (hdvd : ∀ i, E.getD i 0 ≠ 0 → (r / d) ∣ i) :
    (⟨d, trim (everyNth (r / d) E), [PSer.one]⟩ :
      ContinuousGeneralizedSeries).inflate r = (E, [PSer.one]) := by
  have hdpos : 0 < d := Nat.pos_of_dvd_of_pos hd hram
  have hquo : 0 < r / d := Nat.div_pos (Nat.le_of_dvd hram hd) hdpos
  unfold ContinuousGeneralizedSeries.inflate
  rw [if_neg (fun hh => hdne hh.symm)]
  dsimp only
  rw [stretch_everyNth_trim hquo hdvd, hE, mapNZ_one]

theorem contract_of_isZero {q : ℕ} (hq : 0 < q) {c : PSer} (hz : c.isZero = true) :
    PSer.contract q c = ⟨[], none⟩ := by
  have hco : c.coeffs = [] := by
    unfold PSer.isZero at hz
    cases hcc : c.coeffs with
    | nil => rfl
    | cons x xs => rw [hcc] at hz; simp at hz
  unfold PSer.contract
  rw [hco, everyNth_nil hq]
  rfl

theorem inflate_tail_contracted {r d : ℕ} {T : List PSer} (hram : 0 < r) (hd : d ∣ r)
    (hdne : d ≠ r) (hwf : wfTail T = true)
    (hdvd : ∀ c ∈ T, ∀ i, c.coeffs.getD i 0 ≠ 0 → (r / d) ∣ i) :
    (⟨d, [], trimT (T.map (PSer.contract (r / d)))⟩ :
      ContinuousGeneralizedSeries).inflate r = ([], T.map PSer.exactify) := by
  have hdpos : 0 < d := Nat.pos_of_dvd_of_pos hd hram
  have hquo : 0 < r / d := Nat.div_pos (Nat.le_of_dvd hram hd) hdpos
  have hciso : ∀ c ∈ T, (PSer.contract (r / d) c).isZero = c.isZero := fun c hc =>
    PSer.contract_isZero hquo (wfTail_all hwf c hc) (hdvd c hc)
  unfold ContinuousGeneralizedSeries.inflate
  rw [if_neg (fun hh => hdne hh.symm)]
  dsimp only
  have hexp : trim (stretch (r / d) []) = [] := rfl
  rw [hexp]
  have hstep1 : trimT (T.map (PSer.contract (r / d))) = T.map (PSer.contract (r / d)) := by
    rw [trimT_map hciso, wfTail_trimT hwf]
  rw [hstep1]
  unfold mapNZ
  rw [List.map_map]
  have hstep2 : T.map ((fun c => if c.isZero = true then c else PSer.inflate (r / d) c)
      ∘ PSer.contract (r / d)) = T.map PSer.exactify := by
    apply List.map_congr_left
    intro c hc
    simp only [Function.comp]
    by_cases hz : c.isZero = true
    · rw [contract_of_isZero hquo hz]
      have hco : c.coeffs = [] := by
        unfold PSer.isZero at hz
        cases hcc : c.coeffs with
        | nil => rfl
        | cons x xs => rw [hcc] at hz; simp at hz
      have : (⟨[], none⟩ : PSer).isZero = true := rfl
      rw [if_pos this]
      unfold PSer.exactify
      rw [hco]
    · have hz' : (PSer.contract (r / d) c).isZero = false := by
        rw [hciso c hc]
        simpa using hz
      rw [if_neg (by simp [hz'])]
      exact PSer.inflate_contract hquo (wfTail_all hwf c hc) (hdvd c hc)
  rw [hstep2]
  rw [trimT_map (fun c _ => exactify_isZero c), wfTail_trimT hwf]

theorem roundtrip_main (A : ContinuousGeneralizedSeries) (h : A.normalizedb = true) :
    (A.exponential_part.mul A.tailPart).eq A = true := by
  by_cases hz : A.tail.isEmpty
  · have hA : A = zeroC := by
      unfold ContinuousGeneralizedSeries.normalizedb at h
      rw [if_pos hz] at h
      simpa using h
    rw [hA]
    with_unfolding_all decide
  · unfold ContinuousGeneralizedSeries.normalizedb at h
    rw [if_neg hz] at h
    simp only [Bool.and_eq_true, decide_eq_true_eq, beq_iff_eq] at h
    obtain ⟨⟨⟨⟨hram, hexp⟩, hwf⟩, hmv⟩, hstag⟩ := h
    have hne : A.tail ≠ [] := by
      intro hh
      rw [hh] at hz
      simp at hz
    have hd1r : lcmDenE A.ramification A.exp ∣ A.ramification := lcmDenFrom_dvd 0 A.exp
    have hd1pos : 0 < lcmDenE A.ramification A.exp := lcmDenFrom_pos 0 A.exp
    have hd2r : tailRamFold A.ramification 1 A.tail ∣ A.ramification :=
      tailRamFold_dvd (Nat.one_dvd _) A.tail
    have hd2pos : 0 < tailRamFold A.ramification 1 A.tail :=
      tailRamFold_pos Nat.one_pos A.tail
    have hlcm : Nat.lcm (lcmDenE A.ramification A.exp)
        (tailRamFold A.ramification 1 A.tail) = A.ramification := by
      by_cases hc : lcmDenE A.ramification A.exp = A.ramification
      · rw [hc]
        exact Nat.dvd_antisymm (Nat.lcm_dvd (dvd_refl _) hd2r) (Nat.dvd_lcm_left _ _)
      · have hlt : lcmDenE A.ramification A.exp < A.ramification :=
          Nat.lt_of_le_of_ne (Nat.le_of_dvd hram hd1r) hc
        have hs := hstag
        unfold newRamC at hs
        rw [if_pos hlt, tailRamFold_start] at hs
        exact hs
    have hdvdE : ∀ i, A.exp.getD i 0 ≠ 0 →
        (A.ramification / lcmDenE A.ramification A.exp) ∣ i := by
      intro i hi
      refine dvd_of_expDen_dvd hram hd1r ?_
      simpa using expDen_dvd_lcmDenFrom hi 0
    have hdvdT : ∀ c ∈ A.tail, ∀ i, c.coeffs.getD i 0 ≠ 0 →
        (A.ramification / tailRamFold A.ramification 1 A.tail) ∣ i := by
      intro c hc i hi
      have hcz : c.isZero = false := by
        unfold PSer.isZero
        cases hcc : c.coeffs with
        | nil => rw [hcc] at hi; simp at hi
        | cons x xs => rfl
      have h1 : expDen i A.ramification ∣ lcmDenPS A.ramification c := by
        simpa using expDen_dvd_lcmDenFrom hi 0
      have h2 : lcmDenPS A.ramification c ∣ tailRamFold A.ramification 1 A.tail :=
        lcmDenPS_dvd_tailRamFold hc 1 hcz
      exact dvd_of_expDen_dvd hram hd2r (dvd_trans h1 h2)
    rw [exponential_part_eval hram hexp.symm, tailPart_eval hram hwf hne hmv]
    by_cases hc1 : lcmDenE A.ramification A.exp ≠ A.ramification
    · rw [if_pos hc1]
      by_cases hc2 : tailRamFold A.ramification 1 A.tail = A.ramification
      · rw [if_pos hc2]
        unfold ContinuousGeneralizedSeries.mul
        dsimp only
        have hs : Nat.lcm (lcmDenE A.ramification A.exp) A.ramification =
            A.ramification :=
          Nat.dvd_antisymm (Nat.lcm_dvd hd1r (dvd_refl _)) (Nat.dvd_lcm_right _ _)
        rw [hs]
        rw [inflate_exp_contracted hram hd1r hc1 hexp.symm hdvdE]
        rw [inflate_self rfl]
        dsimp only
        exact roundtrip_core hexp.symm hwf hne hmv hstag (Or.inl rfl)
      · rw [if_neg hc2]
        unfold ContinuousGeneralizedSeries.mul
        dsimp only
        rw [hlcm]
        rw [inflate_exp_contracted hram hd1r hc1 hexp.symm hdvdE]
        rw [inflate_tail_contracted hram hd2r hc2 hwf hdvdT]
        dsimp only
        exact roundtrip_core hexp.symm hwf hne hmv hstag (Or.inr rfl)
    · rw [if_neg hc1]
      have hc1' : lcmDenE A.ramification A.exp = A.ramification := by
        by_contra hcc
        exact hc1 hcc
      by_cases hc2 : tailRamFold A.ramification 1 A.tail = A.ramification
      · rw [if_pos hc2]
        unfold ContinuousGeneralizedSeries.mul
        dsimp only
        rw [Nat.lcm_self]
        rw [inflate_self rfl, inflate_self rfl]
        dsimp only
        exact roundtrip_core hexp.symm hwf hne hmv hstag (Or.inl rfl)
      · rw [if_neg hc2]
        unfold ContinuousGeneralizedSeries.mul
        dsimp only
        have hs : Nat.lcm A.ramification (tailRamFold A.ramification 1 A.tail) =
            A.ramification :=
          Nat.dvd_antisymm (Nat.lcm_dvd (dvd_refl _) hd2r) (Nat.dvd_lcm_left _ _)
        rw [hs]
        rw [inflate_self rfl]
        rw [inflate_tail_contracted hram hd2r hc2 hwf hdvdT]
        dsimp only
        exact roundtrip_core hexp.symm hwf hne hmv hstag (Or.inr rfl)



theorem foldl_min_le_init (v : ℕ) (vs : List ℕ) : vs.foldl min v ≤ v := by
  induction vs generalizing v with
  | nil => exact Nat.le_refl v
  | cons w ws ih =>
    calc (w :: ws).foldl min v = ws.foldl min (min v w) := rfl
    _ ≤ min v w := ih (min v w)
    _ ≤ v := Nat.min_le_left v w

theorem foldl_min_le_mem {u : ℕ} {vs : List ℕ} (h : u ∈ vs) (v : ℕ) :
    vs.foldl min v ≤ u := by
  induction vs generalizing v with
  | nil => simp at h
  | cons w ws ih =>
    rcases List.mem_cons.mp h with rfl | hmem
    · calc (u :: ws).foldl min v = ws.foldl min (min v u) := rfl
      _ ≤ min v u := foldl_min_le_init _ ws
      _ ≤ u := Nat.min_le_right v u
    · exact ih hmem (min v w)

theorem foldl_min_mem (v : ℕ) (vs : List ℕ) :
    vs.foldl min v = v ∨ vs.foldl min v ∈ vs := by
  induction vs generalizing v with
  | nil => exact Or.inl rfl
  | cons w ws ih =>
    rcases ih (min v w) with h | h
    · rcases Nat.le_total v w with hvw | hwv
      · left
        calc (w :: ws).foldl min v = ws.foldl min (min v w) := rfl
        _ = min v w := h
        _ = v := Nat.min_eq_left hvw
      · right
        have heq : (w :: ws).foldl min v = w := by
          calc (w :: ws).foldl min v = ws.foldl min (min v w) := rfl
          _ = min v w := h
          _ = w := Nat.min_eq_right hwv
        rw [heq]
        exact List.mem_cons_self w ws
    · right
      exact List.mem_cons_of_mem w h

theorem minValT_le_of_mem {t : List PSer} {c : PSer} (hc : c ∈ t)
    (hz : c.isZero = false) : minValT t ≤ c.valuation := by
  unfold minValT
  have hmem : c.valuation ∈ (t.filter (fun c => !c.isZero)).map PSer.valuation :=
    List.mem_map_of_mem PSer.valuation (List.mem_filter.mpr ⟨hc, by simp [hz]⟩)
  cases hl : (t.filter (fun c => !c.isZero)).map PSer.valuation with
  | nil => rw [hl] at hmem; simp at hmem
  | cons v vs =>
    rw [hl] at hmem
    rcases List.mem_cons.mp hmem with rfl | hmem2
    · exact foldl_min_le_init _ vs
    · exact foldl_min_le_mem hmem2 v

theorem minValT_attained {t : List PSer} {c : PSer} (hc : c ∈ t)
    (hz : c.isZero = false) :
    ∃ d ∈ t, d.isZero = false ∧ d.valuation = minValT t := by
  unfold minValT
  have hmem : c.valuation ∈ (t.filter (fun c => !c.isZero)).map PSer.valuation :=
    List.mem_map_of_mem PSer.valuation (List.mem_filter.mpr ⟨hc, by simp [hz]⟩)
  cases hl : (t.filter (fun c => !c.isZero)).map PSer.valuation with
  | nil => rw [hl] at hmem; simp at hmem
  | cons v vs =>
    have hval : vs.foldl min v ∈ v :: vs := by
      rcases foldl_min_mem v vs with h | h
      · rw [h]; exact List.mem_cons_self v vs
      · exact List.mem_cons_of_mem v h
    rw [← hl] at hval
    obtain ⟨d, hd, hdval⟩ := List.mem_map.mp hval
    have hd2 := List.mem_filter.mp hd
    exact ⟨d, hd2.1, by simpa using hd2.2, hdval⟩

theorem findIdx_zero_of_getD {l : List ℚ} (h : l.getD 0 0 ≠ 0) :
    l.findIdx (fun c => decide (c ≠ 0)) = 0 := by
  cases l with
  | nil => simp at h
  | cons a as =>
    have ha : a ≠ 0 := by simpa using h
    simp [List.findIdx_cons, ha]

theorem val_spec {l : List ℚ} {i : ℕ} (h : l.getD i 0 ≠ 0) :
    l.getD (l.findIdx (fun c => decide (c ≠ 0))) 0 ≠ 0 ∧
      ∀ j < l.findIdx (fun c => decide (c ≠ 0)), l.getD j 0 = 0 := by
  induction l generalizing i with
  | nil => simp at h
  | cons a as ih =>
    by_cases ha : a = 0
    · cases i with
      | zero => rw [ha] at h; simp at h
      | succ i' =>
        have h' : as.getD i' 0 ≠ 0 := by simpa using h
        obtain ⟨h1, h2⟩ := ih h'
        have hidx : (a :: as).findIdx (fun c => decide (c ≠ 0)) =
            as.findIdx (fun c => decide (c ≠ 0)) + 1 := by
          simp [List.findIdx_cons, ha]
        rw [hidx]
        refine ⟨by simpa using h1, ?_⟩
        intro j hj
        cases j with
        | zero => simpa using ha
        | succ j' => simpa using h2 j' (by omega)
    · have hidx : (a :: as).findIdx (fun c => decide (c ≠ 0)) = 0 := by
        simp [List.findIdx_cons, ha]
      rw [hidx]
      exact ⟨by simpa using ha, fun j hj => by omega⟩

theorem val_unique {l : List ℚ} {v : ℕ} (h1 : l.getD v 0 ≠ 0)
    (h2 : ∀ j < v, l.getD j 0 = 0) : l.findIdx (fun c => decide (c ≠ 0)) = v := by
  obtain ⟨hs1, hs2⟩ := val_spec h1
  rcases Nat.lt_trichotomy (l.findIdx (fun c => decide (c ≠ 0))) v with h | h | h
  · exact absurd (h2 _ h) hs1
  · exact h
  · exact absurd (hs2 v h) h1

theorem trimT_all_zero {l : List PSer} (h : trimT l = []) :
    ∀ c ∈ l, c.isZero = true := by
  induction l with
  | nil => intro c hc; simp at hc
  | cons a as ih =>
    intro c hc
    have hnil : trimT as = [] := by
      by_contra hne
      cases has : trimT as with
      | nil => exact hne has
      | cons b bs =>
        have : trimT (a :: as) = a :: b :: bs := by
          unfold trimT
          rw [has]
        rw [h] at this
        exact List.noConfusion this
    have ha : a.isZero = true := by
      by_contra hne
      have : trimT (a :: as) = [a] := by
        unfold trimT
        rw [hnil]
        simp [Bool.not_eq_true] at hne
        simp [hne]
      rw [h] at this
      exact List.noConfusion this
    rcases List.mem_cons.mp hc with rfl | hmem
    · exact ha
    · exact ih hnil c hmem

theorem nonzero_mem_trimT {c : PSer} {l : List PSer} (hc : c ∈ l)
    (hz : c.isZero = false) : c ∈ trimT l := by
  induction l with
  | nil => simp at hc
  | cons a as ih =>
    rcases List.mem_cons.mp hc with rfl | hmem
    · cases has : trimT as with
      | nil =>
        have : trimT (c :: as) = [c] := by
          unfold trimT; rw [has]; simp [hz]
        rw [this]
        exact List.mem_singleton.mpr rfl
      | cons b bs =>
        have : trimT (c :: as) = c :: b :: bs := by
          unfold trimT; rw [has]
        rw [this]
        exact List.mem_cons_self c _
    · have hin := ih hmem
      cases has : trimT as with
      | nil => rw [has] at hin; simp at hin
      | cons b bs =>
        have : trimT (a :: as) = a :: b :: bs := by
          unfold trimT; rw [has]
        rw [has] at hin
        rw [this]
        exact List.mem_cons_of_mem a hin

theorem mem_of_mem_trimT {c : PSer} {l : List PSer} (h : c ∈ trimT l) : c ∈ l := by
  induction l with
  | nil => simp [trimT] at h
  | cons a as ih =>
    cases has : trimT as with
    | nil =>
      rw [trimT, has] at h
      by_cases ha : a.isZero
      · rw [if_pos ha] at h; simp at h
      · rw [if_neg ha] at h
        rw [List.mem_singleton.mp h]
        exact List.mem_cons_self a as
    | cons b bs =>
      rw [trimT, has] at h
      rcases List.mem_cons.mp h with rfl | hmem
      · exact List.mem_cons_self c as
      · exact List.mem_cons_of_mem a (ih (has ▸ hmem))

theorem trimT_idem (l : List PSer) : trimT (trimT l) = trimT l := by
  induction l with
  | nil => rfl
  | cons a as ih =>
    cases has : trimT as with
    | nil =>
      rw [trimT, has]
      by_cases ha : a.isZero
      · simp [ha, trimT]
      · simp [ha, trimT]
    | cons b bs =>
      have h1 : trimT (a :: as) = a :: b :: bs := by
        unfold trimT; rw [has]
      rw [h1]
      have h2 : trimT (b :: bs) = b :: bs := by
        rw [← has, ih, has]
      show trimT (a :: b :: bs) = a :: b :: bs
      unfold trimT
      rw [show trimT (b :: bs) = b :: bs from h2]

theorem trimT_nonempty_has_nonzero {l : List PSer} (h : trimT l ≠ []) :
    ∃ c ∈ trimT l, c.isZero = false := by
  induction l with
  | nil => simp [trimT] at h
  | cons a as ih =>
    cases has : trimT as with
    | nil =>
      rw [trimT, has] at h ⊢
      by_cases ha : a.isZero
      · rw [if_pos ha] at h; simp at h
      · rw [if_neg ha]
        exact ⟨a, List.mem_singleton.mpr rfl, Bool.not_eq_true _ ▸ by simpa using ha⟩
    | cons b bs =>
      have h1 : trimT (a :: as) = a :: b :: bs := by
        unfold trimT; rw [has]
      rw [h1]
      obtain ⟨c, hc, hcz⟩ := ih (by rw [has]; simp)
      rw [has] at hc
      exact ⟨c, List.mem_cons_of_mem a hc, hcz⟩

theorem tailRamFold_filter (ram a : ℕ) (l : List PSer) :
    tailRamFold ram a l = (l.filter (fun c => !c.isZero)).foldl
      (fun acc c => Nat.lcm acc (lcmDenPS ram c)) a := by
  induction l generalizing a with
  | nil => rfl
  | cons c cs ih =>
    by_cases hc : c.isZero
    · show tailRamFold ram (if c.isZero then a else Nat.lcm a (lcmDenPS ram c)) cs = _
      rw [if_pos hc, List.filter_cons, if_neg (by simp [hc])]
      exact ih a
    · show tailRamFold ram (if c.isZero then a else Nat.lcm a (lcmDenPS ram c)) cs = _
      rw [if_neg hc, List.filter_cons, if_pos (by simp [hc])]
      exact ih (Nat.lcm a (lcmDenPS ram c))

theorem filterNZ_trimT (l : List PSer) :
    (trimT l).filter (fun c => !c.isZero) = l.filter (fun c => !c.isZero) := by
  induction l with
  | nil => rfl
  | cons a as ih =>
    cases has : trimT as with
    | nil =>
      have hz := trimT_all_zero has
      have hfas : as.filter (fun c => !c.isZero) = [] := by
        rw [List.filter_eq_nil_iff]
        intro c hc
        simp [hz c hc]
      rw [trimT, has]
      by_cases ha : a.isZero
      · rw [if_pos ha, List.filter_cons, if_neg (by simp [ha]), hfas]
        rfl
      · rw [if_neg ha, List.filter_cons, List.filter_cons,
          if_pos (by simp [ha]), if_pos (by simp [ha]), hfas]
        rfl
    | cons b bs =>
      have h1 : trimT (a :: as) = a :: b :: bs := by
        unfold trimT; rw [has]
      have h2 : List.filter (fun c => !c.isZero) (b :: bs)
          = List.filter (fun c => !c.isZero) as := by
        rw [← has, ih]
      rw [h1, List.filter_cons, h2, List.filter_cons]

theorem minValT_trimT (l : List PSer) : minValT (trimT l) = minValT l := by
  unfold minValT
  rw [filterNZ_trimT]

theorem tailRamFold_trimT (ram a : ℕ) (l : List PSer) :
    tailRamFold ram a (trimT l) = tailRamFold ram a l := by
  rw [tailRamFold_filter, tailRamFold_filter, filterNZ_trimT]

theorem trim_tail {a : ℚ} {as : List ℚ} (h : trim (a :: as) = a :: as) :
    trim as = as := by
  cases has : trim as with
  | nil =>
    rw [trim, has] at h
    by_cases ha : a = 0
    · rw [if_pos ha] at h; exact List.noConfusion h
    · rw [if_neg ha] at h
      have h2 : as = [] := ((List.cons.injEq _ _ _ _).mp h.symm).2
      rw [h2]
  | cons b bs =>
    rw [trim, has] at h
    have h2 : b :: bs = as := ((List.cons.injEq _ _ _ _).mp h).2
    rw [← h2, ← has]

theorem trim_drop {l : List ℚ} (h : trim l = l) (m : ℕ) :
    trim (l.drop m) = l.drop m := by
  induction m generalizing l with
  | zero => simpa using h
  | succ m' ih =>
    cases l with
    | nil => rfl
    | cons a as =>
      rw [List.drop_succ_cons]
      exact ih (trim_tail h)

theorem getD_drop (l : List ℚ) (m i : ℕ) :
    (l.drop m).getD i 0 = l.getD (m + i) 0 := by
  rw [List.getD_eq_getElem?_getD, List.getD_eq_getElem?_getD, List.getElem?_drop]

theorem trim_last_ne_zero {l : List ℚ} (h : trim l = l) (hne : l ≠ []) :
    l.getD (l.length - 1) 0 ≠ 0 := by
  induction l with
  | nil => exact absurd rfl hne
  | cons a as ih =>
    cases has : trim as with
    | nil =>
      rw [trim, has] at h
      by_cases ha : a = 0
      · rw [if_pos ha] at h; exact absurd h.symm (List.cons_ne_nil a as)
      · rw [if_neg ha] at h
        have h2 : as = [] := ((List.cons.injEq _ _ _ _).mp h.symm).2
        subst h2
        simpa using ha
    | cons b bs =>
      rw [trim, has] at h
      have h3 : b :: bs = as := ((List.cons.injEq _ _ _ _).mp h).2
      have h2 : trim as = as := by
        rw [← h3, ← has]
        exact trim_trim as
      have hasne : as ≠ [] := by
        intro hnil
        rw [hnil] at has
        exact List.noConfusion has
      have := ih h2 hasne
      have hlen : 0 < as.length := List.length_pos.mpr hasne
      have harith : (a :: as).length - 1 = (as.length - 1) + 1 := by
        simp only [List.length_cons]
        omega
      rw [harith, List.getD_cons_succ]
      exact this

theorem wfPSer_shiftDown {c : PSer} (m : ℕ) (hwf : wfPSer c = true) :
    wfPSer (PSer.shiftDown m c) = true := by
  obtain ⟨cs, pr⟩ := c
  cases pr with
  | none =>
    simp only [wfPSer, PSer.shiftDown, psub, Bool.and_true] at hwf ⊢
    have h1 : cs = trim cs := of_decide_eq_true hwf
    exact decide_eq_true (trim_drop h1.symm m).symm
  | some n =>
    simp only [wfPSer, PSer.shiftDown, psub, Bool.and_eq_true] at hwf ⊢
    obtain ⟨h1, h2⟩ := hwf
    have h1' : cs = trim cs := of_decide_eq_true h1
    have h2' : cs.length ≤ n := of_decide_eq_true h2
    refine ⟨decide_eq_true (trim_drop h1'.symm m).symm, ?_⟩
    exact decide_eq_true (by simp only [List.length_drop]; omega)

theorem wfPSer_contract (q : ℕ) (c : PSer) : wfPSer (PSer.contract q c) = true := by
  simp only [wfPSer, PSer.contract, Bool.and_true]
  exact decide_eq_true (trim_trim _).symm

theorem wfPSer_coeffs_trim {c : PSer} (hwf : wfPSer c = true) :
    c.coeffs = trim c.coeffs := by
  unfold wfPSer at hwf
  rw [Bool.and_eq_true] at hwf
  exact of_decide_eq_true hwf.1

theorem nonzero_getD_last {c : PSer} (hwf : wfPSer c = true) (hz : c.isZero = false) :
    c.coeffs.getD (c.coeffs.length - 1) 0 ≠ 0 := by
  have h1 := wfPSer_coeffs_trim hwf
  have hne : c.coeffs ≠ [] := by
    intro hnil
    unfold PSer.isZero at hz
    rw [hnil] at hz
    simp at hz
  exact trim_last_ne_zero h1.symm hne

theorem valuation_getD {c : PSer} {i : ℕ} (h : c.coeffs.getD i 0 ≠ 0) :
    c.coeffs.getD c.valuation 0 ≠ 0 ∧ ∀ j < c.valuation, c.coeffs.getD j 0 = 0 := by
  unfold PSer.valuation
  exact val_spec h

theorem valuation_lt_length {c : PSer} (hwf : wfPSer c = true)
    (hz : c.isZero = false) : c.valuation < c.coeffs.length := by
  have h := nonzero_getD_last hwf hz
  obtain ⟨hv, _⟩ := valuation_getD h
  by_contra hge
  push_neg at hge
  rw [List.getD_eq_default _ _ hge] at hv
  exact hv rfl

theorem shiftDown_valuation {c : PSer} {m : ℕ} (hle : m ≤ c.valuation)
    (hv : c.coeffs.getD c.valuation 0 ≠ 0)
    (hmin : ∀ j < c.valuation, c.coeffs.getD j 0 = 0) :
    (PSer.shiftDown m c).valuation = c.valuation - m ∧
      (PSer.shiftDown m c).isZero = false := by
  have hg : (c.coeffs.drop m).getD (c.valuation - m) 0 ≠ 0 := by
    rw [getD_drop]
    have harith : m + (c.valuation - m) = c.valuation := by omega
    rw [harith]
    exact hv
  constructor
  · show (c.coeffs.drop m).findIdx (fun x => decide (x ≠ 0)) = c.valuation - m
    apply val_unique hg
    intro j hj
    rw [getD_drop]
    exact hmin (m + j) (by omega)
  · show (c.coeffs.drop m).isEmpty = false
    cases hd : c.coeffs.drop m with
    | nil => rw [hd] at hg; simp at hg
    | cons x xs => simp

theorem minValT_eq_zero_of_mem {t : List PSer} {c : PSer} (hc : c ∈ t)
    (hz : c.isZero = false) (hv : c.valuation = 0) : minValT t = 0 := by
  have h := minValT_le_of_mem hc hz
  omega

theorem minValT_mapNZ_shiftDown {p : List PSer}
    (hwf : ∀ c ∈ p, wfPSer c = true)
    (hx : ∃ c ∈ p, c.isZero = false) :
    minValT (mapNZ (PSer.shiftDown (minValT p)) p) = 0 ∧
      ∃ c ∈ mapNZ (PSer.shiftDown (minValT p)) p, c.isZero = false := by
  obtain ⟨c, hc, hcz⟩ := hx
  obtain ⟨c₀, hc₀, hc₀z, hc₀v⟩ := minValT_attained hc hcz
  have hwf₀ := hwf c₀ hc₀
  have hlast := nonzero_getD_last hwf₀ hc₀z
  obtain ⟨hv, hmin⟩ := valuation_getD hlast
  have hle : minValT p ≤ c₀.valuation := by rw [hc₀v]
  obtain ⟨hval', hnz'⟩ := shiftDown_valuation hle hv hmin
  have hv0 : (PSer.shiftDown (minValT p) c₀).valuation = 0 := by
    rw [hval', hc₀v]
    omega
  have hmem2 : PSer.shiftDown (minValT p) c₀ ∈ p.map
      (fun c => if c.isZero then c else PSer.shiftDown (minValT p) c) := by
    have heq : (fun c => if c.isZero then c else PSer.shiftDown (minValT p) c) c₀
        = PSer.shiftDown (minValT p) c₀ := by simp [hc₀z]
    rw [← heq]
    exact List.mem_map_of_mem _ hc₀
  have hmem3 : PSer.shiftDown (minValT p) c₀ ∈ mapNZ (PSer.shiftDown (minValT p)) p :=
    nonzero_mem_trimT hmem2 hnz'
  exact ⟨minValT_eq_zero_of_mem hmem3 hnz' hv0, ⟨_, hmem3, hnz'⟩⟩

theorem expDen_scale {q : ℕ} (hq : 0 < q) (nr j : ℕ) :
    expDen j nr = expDen (j * q) (q * nr) := by
  unfold expDen
  have hq' : (q : ℚ) ≠ 0 := by exact_mod_cast Nat.pos_iff_ne_zero.mp hq
  have heq : ((j * q : ℕ) : ℚ) / ((q * nr : ℕ) : ℚ) = (j : ℚ) / (nr : ℚ) := by
    push_cast
    rw [mul_comm (j : ℚ) (q : ℚ)]
    exact mul_div_mul_left _ _ hq'
  rw [heq]

theorem lcmDenFrom_dvd_of {ram X : ℕ} :
    ∀ (l : List ℚ) (i : ℕ), (∀ j, l.getD j 0 ≠ 0 → expDen (i + j) ram ∣ X) →
      lcmDenFrom ram i l ∣ X := by
  intro l
  induction l with
  | nil => intro i _; exact Nat.one_dvd X
  | cons c cs ih =>
    intro i h
    have hrest : ∀ j, cs.getD j 0 ≠ 0 → expDen (i + 1 + j) ram ∣ X := by
      intro j hj
      have h2 := h (j + 1) (by simpa using hj)
      rwa [show i + (j + 1) = i + 1 + j by omega] at h2
    by_cases hc : c = 0
    · simpa [lcmDenFrom, hc] using ih (i + 1) hrest
    · have h0 : expDen i ram ∣ X := by
        have h3 := h 0 (by simpa using hc)
        simpa using h3
      simpa [lcmDenFrom, hc] using Nat.lcm_dvd h0 (ih (i + 1) hrest)

theorem lcmDen_scale {q nr : ℕ} (hq : 0 < q) (l : List ℚ)
    (hdvd : ∀ i, l.getD i 0 ≠ 0 → q ∣ i) :
    lcmDenFrom nr 0 (trim (everyNth q l)) = lcmDenFrom (q * nr) 0 l := by
  apply Nat.dvd_antisymm
  · apply lcmDenFrom_dvd_of
    intro j hj
    rw [getD_trim, everyNth_getD hq] at hj
    have h1 : expDen (0 + j) nr = expDen (j * q) (q * nr) := by
      rw [Nat.zero_add]
      exact expDen_scale hq nr j
    rw [h1]
    have h2 := @expDen_dvd_lcmDenFrom (q * nr) _ _ hj 0
    simpa using h2
  · apply lcmDenFrom_dvd_of
    intro i hi
    have hqi : q ∣ i := hdvd i hi
    have h3 : (trim (everyNth q l)).getD (i / q) 0 ≠ 0 := by
      rw [getD_trim, everyNth_getD hq, Nat.div_mul_cancel hqi]
      exact hi
    have h4 := @expDen_dvd_lcmDenFrom nr _ _ h3 0
    have h5 : expDen (0 + i) (q * nr) = expDen (0 + (i / q)) nr := by
      rw [Nat.zero_add, Nat.zero_add, expDen_scale hq nr (i / q),
        Nat.div_mul_cancel hqi]
    rw [h5]
    simpa using h4

theorem contract_lcmDenPS {q nr : ℕ} (hq : 0 < q) {c : PSer}
    (hdvd : ∀ i, c.coeffs.getD i 0 ≠ 0 → q ∣ i) :
    lcmDenPS nr (PSer.contract q c) = lcmDenPS (q * nr) c := by
  unfold lcmDenPS PSer.contract
  exact lcmDen_scale hq c.coeffs hdvd

theorem tailRamFold_map_scale {r1 r2 : ℕ} {f : PSer → PSer} {t : List PSer}
    (h : ∀ c ∈ t, (f c).isZero = c.isZero ∧ lcmDenPS r1 (f c) = lcmDenPS r2 c) :
    ∀ a, tailRamFold r1 a (t.map f) = tailRamFold r2 a t := by
  induction t with
  | nil => intro a; rfl
  | cons c cs ih =>
    intro a
    obtain ⟨hz, hl⟩ := h c (List.mem_cons_self c cs)
    have ih' := ih (fun x hx => h x (List.mem_cons_of_mem c hx))
    show tailRamFold r1 (if (f c).isZero then a else Nat.lcm a (lcmDenPS r1 (f c)))
        (cs.map f)
      = tailRamFold r2 (if c.isZero then a else Nat.lcm a (lcmDenPS r2 c)) cs
    rw [hz, hl]
    by_cases hcz : c.isZero
    · simpa [hcz] using ih' a
    · simpa [hcz] using ih' (a.lcm (lcmDenPS r2 c))

theorem dvd_tailRamFold_start {ram a : ℕ} (t : List PSer) :
    a ∣ tailRamFold ram a t := by
  rw [tailRamFold_start]
  exact Nat.dvd_lcm_left a _

/-- The continuous constructor establishes every invariant recorded in
normalizedb, for any input whose tail coefficients are well-formed (the
representations the host polynomial ring maintains) and any positive
ramification (the constructor rejects nonpositive ones). -/
theorem mkCGS_normalized {t0 : List PSer} {e0 : List ℚ} {r0 : ℕ} (hr : 0 < r0)
    (hall : ∀ c ∈ t0, wfPSer c = true) :
    (mkCGS t0 e0 r0).normalizedb = true := by
  by_cases hp : (trimT t0).isEmpty
  · have h1 : mkCGS t0 e0 r0 = zeroC := by
      unfold mkCGS
      dsimp only
      rw [if_pos hp]
    rw [h1]
    with_unfolding_all decide
  · have hni : (trimT t0).isEmpty = false := by
      cases h : (trimT t0).isEmpty
      · rfl
      · exact absurd h hp
    unfold mkCGS
    dsimp only
    rw [hni]
    simp only [Bool.false_eq_true, if_false]
    set p0 := trimT t0 with hp0
    set mv := minValT p0 with hmv
    set E1 := if mv = 0 then trim e0 else trim (addQ (trim e0) [(mv : ℚ) / (r0 : ℚ)])
      with hE1
    set P1 := if mv = 0 then p0 else mapNZ (PSer.shiftDown mv) p0 with hP1
    set nr := newRamC r0 E1 P1 with hnr
    have hp0ne : p0 ≠ [] := by
      intro h
      rw [h] at hni
      simp at hni
    have hp0trim : trimT p0 = p0 := by
      rw [hp0]
      exact trimT_idem t0
    have hp0wf : ∀ c ∈ p0, wfPSer c = true := by
      intro c hc
      rw [hp0] at hc
      exact hall c (mem_of_mem_trimT hc)
    have hp0ex : ∃ c ∈ p0, c.isZero = false := by
      rw [hp0]
      exact trimT_nonempty_has_nonzero (by rw [← hp0]; exact hp0ne)
    have hP1pack : trimT P1 = P1 ∧ (∀ c ∈ P1, wfPSer c = true) ∧ minValT P1 = 0
        ∧ ∃ c ∈ P1, c.isZero = false := by
      by_cases hmv0 : mv = 0
      · have hP1eq : P1 = p0 := by rw [hP1, if_pos hmv0]
        refine ⟨by rw [hP1eq]; exact hp0trim, by rw [hP1eq]; exact hp0wf, ?_,
          by rw [hP1eq]; exact hp0ex⟩
        rw [hP1eq, ← hmv]
        exact hmv0
      · have hP1eq : P1 = mapNZ (PSer.shiftDown mv) p0 := by rw [hP1, if_neg hmv0]
        have hmain := minValT_mapNZ_shiftDown hp0wf hp0ex
        rw [← hmv] at hmain
        refine ⟨?_, ?_, by rw [hP1eq]; exact hmain.1, by rw [hP1eq]; exact hmain.2⟩
        · rw [hP1eq]
          unfold mapNZ
          exact trimT_idem _
        · intro c hc
          rw [hP1eq] at hc
          unfold mapNZ at hc
          obtain ⟨b, hb, hbe⟩ := List.mem_map.mp (mem_of_mem_trimT hc)
          have hbe' : (if b.isZero then b else PSer.shiftDown mv b) = c := hbe
          by_cases hbz : b.isZero
          · rw [if_pos hbz] at hbe'
            rw [← hbe']
            exact hp0wf b hb
          · rw [if_neg hbz] at hbe'
            rw [← hbe']
            exact wfPSer_shiftDown mv (hp0wf b hb)
    obtain ⟨hP1trim, hP1wf, hP1mv, hP1ex⟩ := hP1pack
    have hE1trim : trim E1 = E1 := by
      rw [hE1]
      by_cases h : mv = 0
      · rw [if_pos h]
        exact trim_trim e0
      · rw [if_neg h]
        exact trim_trim _
    have hd1dvd : lcmDenE r0 E1 ∣ r0 := lcmDenFrom_dvd 0 E1
    have hnr_eq : nr = (if lcmDenE r0 E1 < r0
        then tailRamFold r0 (lcmDenE r0 E1) P1 else lcmDenE r0 E1) := by
      rw [hnr]
      unfold newRamC
      dsimp only
    have hnrdvd : nr ∣ r0 := by
      rw [hnr_eq]
      by_cases h : lcmDenE r0 E1 < r0
      · rw [if_pos h]
        exact tailRamFold_dvd hd1dvd P1
      · rw [if_neg h]
        exact hd1dvd
    have hnrpos : 0 < nr := by
      rw [hnr_eq]
      by_cases h : lcmDenE r0 E1 < r0
      · rw [if_pos h]
        exact tailRamFold_pos (lcmDenFrom_pos 0 E1) P1
      · rw [if_neg h]
        exact lcmDenFrom_pos 0 E1
    obtain ⟨cw, hcw, hcwz⟩ := hP1ex
    obtain ⟨c₀, hc₀, hc₀z, hc₀v⟩ := minValT_attained hcw hcwz
    have hc₀v0 : c₀.valuation = 0 := by rw [hc₀v, hP1mv]
    have hP1empty : P1.isEmpty = false := by
      cases hp1 : P1 with
      | nil => rw [hp1] at hcw; simp at hcw
      | cons d ds => simp
    by_cases hne : nr ≠ r0
    · rw [if_pos hne]
      set quo := r0 / nr with hquo
      have hqpos : 0 < quo := Nat.div_pos (Nat.le_of_dvd hr hnrdvd) hnrpos
      have hfac : quo * nr = r0 := Nat.div_mul_cancel hnrdvd
      have hlt : lcmDenE r0 E1 < r0 := by
        by_contra hge
        rw [hnr_eq, if_neg hge] at hne
        have h1 : lcmDenE r0 E1 ≤ r0 := Nat.le_of_dvd hr hd1dvd
        omega
      have hnrfold : nr = tailRamFold r0 (lcmDenE r0 E1) P1 := by
        rw [hnr_eq, if_pos hlt]
      have hd1nr : lcmDenE r0 E1 ∣ nr := by
        rw [hnrfold]
        exact dvd_tailRamFold_start P1
      have hdvdE : ∀ j, E1.getD j 0 ≠ 0 → quo ∣ j := by
        intro j hj
        have h1 : expDen j r0 ∣ lcmDenE r0 E1 := by
          have h2 := @expDen_dvd_lcmDenFrom r0 _ _ hj 0
          simpa [lcmDenE] using h2
        have h3 := dvd_of_expDen_dvd hr hnrdvd (dvd_trans h1 hd1nr)
        rwa [← hquo] at h3
      have hdvdT : ∀ c ∈ P1, c.isZero = false →
          ∀ i, c.coeffs.getD i 0 ≠ 0 → quo ∣ i := by
        intro c hc hcz i hi
        have h1 : expDen i r0 ∣ lcmDenPS r0 c := by
          have h2 := @expDen_dvd_lcmDenFrom r0 _ _ hi 0
          simpa [lcmDenPS] using h2
        have h2 : lcmDenPS r0 c ∣ nr := by
          rw [hnrfold]
          exact lcmDenPS_dvd_tailRamFold hc _ hcz
        have h3 := dvd_of_expDen_dvd hr hnrdvd (dvd_trans h1 h2)
        rwa [← hquo] at h3
      have hwfc₀ := hP1wf c₀ hc₀
      have hg0 : c₀.coeffs.getD 0 0 ≠ 0 := by
        have hlast := nonzero_getD_last hwfc₀ hc₀z
        obtain ⟨hv, _⟩ := valuation_getD hlast
        rwa [hc₀v0] at hv
      have hcg : (PSer.contract quo c₀).coeffs.getD 0 0 ≠ 0 := by
        show (trim (everyNth quo c₀.coeffs)).getD 0 0 ≠ 0
        rw [getD_trim, everyNth_getD hqpos]
        simpa using hg0
      have hcz' : (PSer.contract quo c₀).isZero = false := by
        show (trim (everyNth quo c₀.coeffs)).isEmpty = false
        cases hh : trim (everyNth quo c₀.coeffs) with
        | nil =>
          exfalso
          apply hcg
          show (trim (everyNth quo c₀.coeffs)).getD 0 0 = 0
          rw [hh]
          rfl
        | cons d ds => simp
      have hcv' : (PSer.contract quo c₀).valuation = 0 := by
        show (trim (everyNth quo c₀.coeffs)).findIdx (fun x => decide (x ≠ 0)) = 0
        exact findIdx_zero_of_getD hcg
      have hmemT : PSer.contract quo c₀ ∈ trimT (P1.map (PSer.contract quo)) :=
        nonzero_mem_trimT (List.mem_map_of_mem _ hc₀) hcz'
      have hTmv : minValT (trimT (P1.map (PSer.contract quo))) = 0 :=
        minValT_eq_zero_of_mem hmemT hcz' hcv'
      have hTempty : (trimT (P1.map (PSer.contract quo))).isEmpty = false := by
        cases hh : trimT (P1.map (PSer.contract quo)) with
        | nil => rw [hh] at hmemT; simp at hmemT
        | cons d ds => simp
      have hTwf : ∀ c ∈ trimT (P1.map (PSer.contract quo)), wfPSer c = true := by
        intro c hc
        obtain ⟨b, hb, hbe⟩ := List.mem_map.mp (mem_of_mem_trimT hc)
        rw [← hbe]
        exact wfPSer_contract quo b
      have hd1' : lcmDenE nr (trim (everyNth quo E1)) = lcmDenE r0 E1 := by
        show lcmDenFrom nr 0 (trim (everyNth quo E1)) = lcmDenE r0 E1
        rw [lcmDen_scale hqpos E1 hdvdE, hfac]
        rfl
      have hscale : ∀ c ∈ P1, (PSer.contract quo c).isZero = c.isZero ∧
          lcmDenPS nr (PSer.contract quo c) = lcmDenPS r0 c := by
        intro c hc
        by_cases hcz2 : c.isZero
        · have hcc : c.coeffs = [] := by
            unfold PSer.isZero at hcz2
            cases hcc2 : c.coeffs with
            | nil => rfl
            | cons x xs => rw [hcc2] at hcz2; simp at hcz2
          constructor
          · rw [contract_of_isZero hqpos hcz2, hcz2]
            rfl
          · rw [contract_of_isZero hqpos hcz2]
            show lcmDenFrom nr 0 ([] : List ℚ) = lcmDenFrom r0 0 c.coeffs
            rw [hcc]
            rfl
        · have hczf : c.isZero = false := by
            cases h : c.isZero
            · rfl
            · exact absurd h hcz2
          constructor
          · exact PSer.contract_isZero hqpos (hP1wf c hc) (hdvdT c hc hczf)
          · rw [contract_lcmDenPS hqpos (hdvdT c hc hczf), hfac]
      have hfold : tailRamFold nr (lcmDenE r0 E1)
          (trimT (P1.map (PSer.contract quo))) = nr := by
        rw [tailRamFold_trimT, tailRamFold_map_scale hscale, ← hnrfold]
      have hnew2 : newRamC nr (trim (everyNth quo E1))
          (trimT (P1.map (PSer.contract quo))) = nr := by
        unfold newRamC
        dsimp only
        rw [hd1']
        by_cases hlt2 : lcmDenE r0 E1 < nr
        · rw [if_pos hlt2]
          exact hfold
        · rw [if_neg hlt2]
          have hle2 : lcmDenE r0 E1 ≤ nr := Nat.le_of_dvd hnrpos hd1nr
          omega
      unfold ContinuousGeneralizedSeries.normalizedb
      dsimp only
      rw [hTempty]
      simp only [Bool.false_eq_true, if_false]
      rw [Bool.and_eq_true, Bool.and_eq_true, Bool.and_eq_true, Bool.and_eq_true]
      refine ⟨⟨⟨⟨decide_eq_true hnrpos, decide_eq_true (trim_trim _).symm⟩, ?_⟩,
        ?_⟩, ?_⟩
      · unfold wfTail
        rw [Bool.and_eq_true]
        exact ⟨decide_eq_true (trimT_idem _).symm, List.all_eq_true.mpr hTwf⟩
      · simp [hTmv]
      · simp [hnew2]
    · rw [if_neg hne]
      have hnreq : nr = r0 := not_ne_iff.mp hne
      have hnew : newRamC r0 E1 P1 = r0 := by
        rw [← hnr]
        exact hnreq
      show ContinuousGeneralizedSeries.normalizedb ⟨r0, E1, P1⟩ = true
      unfold ContinuousGeneralizedSeries.normalizedb
      dsimp only
      rw [hP1empty]
      simp only [Bool.false_eq_true, if_false]
      rw [Bool.and_eq_true, Bool.and_eq_true, Bool.and_eq_true, Bool.and_eq_true]
      refine ⟨⟨⟨⟨decide_eq_true hr, decide_eq_true hE1trim.symm⟩, ?_⟩, ?_⟩, ?_⟩
      · unfold wfTail
        rw [Bool.and_eq_true]
        exact ⟨decide_eq_true hP1trim.symm, List.all_eq_true.mpr hP1wf⟩
      · simp [hP1mv]
      · simp [hnew]

/-- Consequently the exponential/tail round trip holds for every output of the
normalizing constructor, i.e. for every continuous series value the ring can
produce. -/
theorem roundtrip_of_constructor {t0 : List PSer} {e0 : List ℚ} {r0 : ℕ}
    (hr : 0 < r0) (hall : ∀ c ∈ t0, wfPSer c = true) :
    ((mkCGS t0 e0 r0).exponential_part.mul (mkCGS t0 e0 r0).tailPart).eq
      (mkCGS t0 e0 r0) = true :=
  roundtrip_main _ (mkCGS_normalized hr hall)


/-- Claim C1: invert raises ZeroDivisionError on the zero series; but on a
series whose tail has positive log-degree it does not raise the designated
not-invertible ValueError, because has_logarithms returns None (a missing
return in the source) and the guard is skipped; the failure surfaces later,
as an error of a different kind, when the logarithmic tail is inverted. -/
theorem invert_log_series_behavior :
    zeroC.invert = Res.raised PyErr.zeroDivisionError ∧
    1 < logSeries.tail.length ∧
    pyTruthy logSeries.has_logarithms = false ∧
    logSeries.invert ≠ Res.raised PyErr.valueNotInvertible ∧
    logSeries.invert = Res.raised PyErr.typeError := by
  refine ⟨?_, ?_, rfl, ?_, ?_⟩ <;> with_unfolding_all decide

/-- Claim C2: the continuous has_logarithms computes the comparison
tail.degree() > 0 but returns None on every input (the missing return),
even on the series log(x) whose tail has log-degree 1. -/
theorem has_logarithms_returns_none :
    logSeries.has_logarithms = none ∧ 1 < logSeries.tail.length := by
  refine ⟨rfl, ?_⟩
  with_unfolding_all decide

/-- Claim C3: has_exponential_part tests is_zero of the series returned by
exponential_part, whose tail is the constant 1 and hence never zero; the
accessor therefore returns True even for 1 + x + x^2, whose exponential-part
polynomial is zero, contradicting the claim and the doctest of the source. -/
theorem has_exponential_part_always_true :
    seriesOnePlusXPlusX2.exp = [] ∧
    seriesOnePlusXPlusX2.has_exponential_part = true ∧
    oneC.has_exponential_part = true := by
  refine ⟨?_, ?_, ?_⟩ <;> with_unfolding_all decide

/-- Claim C4: in both the continuous and the discrete monoid, add returns
the other operand when one operand is zero, and raises the incompatibility
ValueError, returning no value, when both operands are nonzero and not
similar. -/
theorem add_zero_and_dissimilar :
    (∀ A B : ContinuousGeneralizedSeries,
      (A.tail.isEmpty = true → A.add B = Res.ok B) ∧
      (A.tail.isEmpty = false → B.tail.isEmpty = true → A.add B = Res.ok A) ∧
      (A.tail.isEmpty = false → B.tail.isEmpty = false → A.similar B = false →
        A.add B = Res.raised PyErr.valueNotSimilar)) ∧
    (∀ A B : DiscreteGeneralizedSeries,
      (A.expansion.isEmpty = true → A.add B = Res.ok B) ∧
      (A.expansion.isEmpty = false → B.expansion.isEmpty = true → A.add B = Res.ok A) ∧
      (A.expansion.isEmpty = false → B.expansion.isEmpty = false → A.similar B = false →
        A.add B = Res.raised PyErr.valueNotSimilar)) := by
  constructor
  · intro A B
    refine ⟨fun h1 => ?_, fun h1 h2 => ?_, fun h1 h2 h3 => ?_⟩
    · simp [ContinuousGeneralizedSeries.add, h1]
    · simp [ContinuousGeneralizedSeries.add, h1, h2]
    · simp [ContinuousGeneralizedSeries.add, h1, h2, h3]
  · intro A B
    refine ⟨fun h1 => ?_, fun h1 h2 => ?_, fun h1 h2 h3 => ?_⟩
    · simp [DiscreteGeneralizedSeries.add, h1]
    · simp [DiscreteGeneralizedSeries.add, h1, h2]
    · simp [DiscreteGeneralizedSeries.add, h1, h2, h3]

/-- Concrete instances of the add contracts: zero operands are passed
through and dissimilar operands raise, in both monoids. -/
theorem add_zero_and_dissimilar_witness :
    zeroC.add seriesOnePlusXPlusX2 = Res.ok seriesOnePlusXPlusX2 ∧
    seriesOnePlusXPlusX2.add zeroC = Res.ok seriesOnePlusXPlusX2 ∧
    oneC.add halfExpSeries = Res.raised PyErr.valueNotSimilar ∧
    zeroD.add oneD = Res.ok oneD ∧
    oneD.add zeroD = Res.ok oneD ∧
    oneD.add rhoTwoD = Res.raised PyErr.valueNotSimilar := by
  refine ⟨?_, ?_, ?_, ?_, ?_, ?_⟩
  · exact (add_zero_and_dissimilar.1 zeroC seriesOnePlusXPlusX2).1 rfl
  · exact (add_zero_and_dissimilar.1 seriesOnePlusXPlusX2 zeroC).2.1
      (by with_unfolding_all decide) rfl
  · exact (add_zero_and_dissimilar.1 oneC halfExpSeries).2.2
      (by with_unfolding_all decide) (by with_unfolding_all decide)
      (by with_unfolding_all decide)
  · exact (add_zero_and_dissimilar.2 zeroD oneD).1 rfl
  · exact (add_zero_and_dissimilar.2 oneD zeroD).2.1 rfl rfl
  · exact (add_zero_and_dissimilar.2 oneD rhoTwoD).2.2 rfl rfl
      (by with_unfolding_all decide)

/-- The shift-quotient engine rejects a positive shift with a nonzero
superexponential rate whenever the working precision satisfies
prec + shift*gamma < 0. -/
theorem engine_insufficient_precision :
    ∀ (p : ℕ) (i : ℤ) (gamma rho : ℚ) (cs : List ℚ) (m : ℕ) (alpha : ℚ),
      0 < i → gamma ≠ 0 → (p : ℚ) + (i : ℚ) * gamma < 0 →
      generalizedSeriesShiftQuotient (some p) i gamma rho (cs, m) alpha =
        Res.raised PyErr.valueInsufficientPrecision := by
  intro p i gamma rho cs m alpha hi hg hp
  have h0 : ¬ (i = 0) := by omega
  have h1 : ¬ (i < 0) := by omega
  simp [generalizedSeriesShiftQuotient, h0, h1, hg, hp]

set_option maxHeartbeats 4000000 in
/-- Claim C5: the code does not reject negative shifts in general.  The
Python 2 list comprehension that extracts the subexponential coefficients
leaks its loop variable over the rest of the method, rebinding the shift
argument i to max(deg(subexp), gamma.denominator()) - 1 whenever that
maximum is at least 2: for halfGammaD (gamma = 1/2) every shift amount,
-5 included, is replaced by the leaked index 1, so no domain error is
raised and the result does not depend on the argument at all.  The domain
error does fire in the leak-free case (gamma integral and subexp of degree
at most 1, as for the discrete one), and the engine raises the
insufficient-precision error for a positive effective shift with
prec + i*gamma < 0. -/
theorem shift_negative_leak_and_errors :
    (∀ i : ℤ, halfGammaD.shift i = halfGammaD.shift 1) ∧
    halfGammaD.shift (-5) ≠ Res.raised PyErr.valueNegativeShift ∧
    oneD.shift (-1) = Res.raised PyErr.valueNegativeShift ∧
    generalizedSeriesShiftQuotient (some 1) 2 (-1) 1 ([], 1) 0 =
      Res.raised PyErr.valueInsufficientPrecision := by
  refine ⟨?_, ?_, ?_, ?_⟩
  · intro i
    with_unfolding_all rfl
  · with_unfolding_all decide
  · with_unfolding_all decide
  · exact engine_insufficient_precision 1 2 (-1) 1 [] 1 0 (by norm_num) (by norm_num)
      (by norm_num)

/-- Claim C6: for every normalized continuous series (every value the
normalizing constructor produces), multiplying the two extracted parts
reconstructs the series: exponential_part(A) * tail(A) == A under the
equality of the series type. -/
theorem exponential_tail_roundtrip (A : ContinuousGeneralizedSeries)
    (h : A.normalizedb = true) :
    (A.exponential_part.mul A.tailPart).eq A = true := by
  exact roundtrip_main A h

/-- The round trip at a concrete normalized series whose tail ramification
is strictly smaller than the stored one (the contraction path). -/
theorem exponential_tail_roundtrip_witness :
    sampleNormalized.normalizedb = true ∧
    (sampleNormalized.exponential_part.mul sampleNormalized.tailPart).eq
      sampleNormalized = true :=
  ⟨by with_unfolding_all decide,
    exponential_tail_roundtrip sampleNormalized (by with_unfolding_all decide)⟩

/-- Claim C7: the discrete canonical zero stores rho = 0, and the discrete
constructor rejects rho = 0, so multiplying any discrete series by the zero
series raises a ValueError instead of returning zero, contradicting the
class documentation; the continuous monoid does absorb zero, and zero is
neutral for addition. -/
theorem discrete_mul_zero_raises :
    zeroD.rho = 0 ∧
    oneD.mul zeroD = Res.raised PyErr.valueConstruction ∧
    seriesOnePlusXPlusX2.mul zeroC = zeroC ∧
    seriesOnePlusXPlusX2.mul oneC = seriesOnePlusXPlusX2 ∧
    zeroC.add seriesOnePlusXPlusX2 = Res.ok seriesOnePlusXPlusX2 ∧
    zeroD.add oneD = Res.ok oneD := by
  refine ⟨rfl, ?_, ?_, ?_, rfl, rfl⟩ <;> with_unfolding_all decide

/-- Claim C8: the series built from tail 1 + x + x^2 with exponential part 0
and ramification 3 stores ramification 3, and substituting x -> x^3 yields
ramification 1 with tail exactly 1 + x + x^2 (the normalizer reduces the
ramification after the rescaling). -/
theorem substitute_ramification_scenario :
    (mkCGS [⟨[1, 1, 1], none⟩] [] 3).ramification = 3 ∧
    (mkCGS [⟨[1, 1, 1], none⟩] [] 3).substitute 3 =
      Res.ok ⟨1, [], [⟨[1, 1, 1], none⟩]⟩ := by
  constructor <;> with_unfolding_all decide

/-- Claim C9: shifting the zero discrete series returns it unchanged for
every integer shift, including negative ones: the engine is never invoked
and no error is raised. -/
theorem zero_shift_fixed_point : ∀ i : ℤ, zeroD.shift i = Res.ok zeroD := by
  intro i
  rfl

/-- Claim C10: substituting the exponent 1 returns the series itself,
for every continuous series value: the branch short-circuits before any
rescaling or renormalization. -/
theorem substitute_one_identity :
    ∀ A : ContinuousGeneralizedSeries, A.substitute 1 = Res.ok A := by
  intro A
  have h1 : ¬ ((1 : ℚ) ≤ 0) := by norm_num
  simp [ContinuousGeneralizedSeries.substitute, h1]
